import Mathlib

/-
Verification of the SPDX template-to-LRE translator (licenses/getspdx.go).

The development embeds the translator over `List Char` (one entry per byte
of the Go string).  Pure helper functions of the source keep their names
(`wrap`, `indentNL`, `findAttr`, `templateToLRE`); the regular expressions
of the source (`wordRE`, `trailingSpaceRE`, `blankRE`) are embedded as the
equivalent deterministic scanners.  Go panics — the `panic` calls of
`templateToLRE`, the index-out-of-range on popping an empty optional-block
stack, and the negative index taken by `wrap` when a line's indentation
exceeds the 80-column target — are modelled by `Option`, with `none` for a
panic.
-/

/-- Convert a string literal to the byte/char list we compute with. -/
def S (s : String) : List Char := s.data

/-- Space or tab, the whitespace class used by wrap and indentNL. -/
def isWS (c : Char) : Bool := c == ' ' || c == '\t'

/-- The character class of blankRE: `[.," \t]`. -/
def isNB (c : Char) : Bool := c == '.' || c == ',' || c == '"' || c == ' ' || c == '\t'

/-- Word characters of wordRE `[\d\w]+` in Go: ASCII digits, letters and underscore. -/
def isWordChar (c : Char) : Bool := c.isAlpha || c.isDigit || c == '_'

/-- Decimal digits of a natural number, as Go fmt `%d` prints it. -/
def natLit (n : Nat) : List Char := (Nat.repr n).data

/-- First index at which `pat` occurs in `l` (Go strings.Index / bytes.Index). -/
def idxOf? (pat : List Char) : List Char → Option Nat
  | [] => if pat.isPrefixOf ([] : List Char) then some 0 else none
  | c :: cs =>
    if pat.isPrefixOf (c :: cs) then some 0
    else (idxOf? pat cs).map (· + 1)

/-- Whether `pat` occurs somewhere in `l` (strings.Contains). -/
def hasSub (pat l : List Char) : Bool := (idxOf? pat l).isSome

/-- The slice t[a:b] of Go. -/
def sub (t : List Char) (a b : Nat) : List Char := (t.drop a).take (b - a)

/-- strings.SplitAfter on newline: pieces keep their trailing newline;
the last piece is newline-free (possibly empty). -/
def splitAfterNL : List Char → List (List Char)
  | [] => [[]]
  | c :: cs =>
    if c = '\n' then ['\n'] :: splitAfterNL cs
    else
      match splitAfterNL cs with
      | [] => [[c]]
      | l :: ls => (c :: l) :: ls

/-- The text of a line up to (excluding) its newline terminator. -/
def lineBody (l : List Char) : List Char := l.takeWhile (· ≠ '\n')

/-- The lines of a text, newline terminators dropped. -/
def linesL (x : List Char) : List (List Char) := (splitAfterNL x).map lineBody

/-- Index one past the last newline of the buffer: the start of the current
(in-progress) line.  Both wrap and indentNL scan backwards for it. -/
def lastLineStart (l : List Char) : Nat := l.length - (l.reverse.takeWhile (· ≠ '\n')).length

/-- Leading space/tab run of the buffer's current line. -/
def indentOf (l : List Char) : List Char := (l.drop (lastLineStart l)).takeWhile isWS

/-- indentNL from getspdx.go: append a newline and re-establish the current
line's indentation. -/
def indentNL (buf : List Char) : List Char := buf ++ '\n' :: indentOf buf

/-- The inner wrapping loop of wrap, for one logical line with its indentation
already stripped.  `none` models the Go panic (negative index into `line`)
that occurs whenever the indentation exceeds the 80-column target.  Fuel
bounds the number of wrap chunks; callers pass `line.length + 1`, which always
suffices because every iteration consumes at least one character of `line`. -/
def wrapLineAux (indent : List Char) : Nat → List Char → Option (List Char)
  | 0, _ => none
  | fuel + 1, line =>
    if 80 < indent.length then none
    else if line.length ≤ 80 - indent.length then some (indent ++ line)
    else
      let bound := 80 - indent.length
      match ((line.take (bound + 1)).reverse).dropWhile (fun c => !isWS c) with
      | _ :: before =>
        -- the last whitespace at index ≤ bound sits at position before.length
        let j := before.length
        let k := j + ((line.drop j).takeWhile isWS).length
        (wrapLineAux indent fuel (line.drop k)).map
          (fun rest => indent ++ line.take j ++ '\n' :: rest)
      | [] =>
        let j := bound + ((line.drop bound).takeWhile (fun c => !isWS c)).length
        if j = line.length then some (indent ++ line)
        else
          let k := j + ((line.drop j).takeWhile isWS).length
          (wrapLineAux indent fuel (line.drop k)).map
            (fun rest => indent ++ line.take j ++ '\n' :: rest)

/-- Reflow a single line from strings.SplitAfter: indentation is split off and
preserved across wraps. -/
def wrapLine (line : List Char) : Option (List Char) :=
  wrapLineAux (line.takeWhile isWS) (line.length + 1) (line.dropWhile isWS)

/-- Reflow a list of lines, concatenating the emitted text. -/
def wrapLines : List (List Char) → Option (List Char)
  | [] => some []
  | l :: ls => (wrapLine l).bind fun a => (wrapLines ls).map (a ++ ·)

/-- wrap from getspdx.go: truncate the buffer back to the start of its current
line, merge that partial line with the new text, and reflow to 80 columns. -/
def wrap (buf text : List Char) : Option (List Char) :=
  let p := lastLineStart buf
  (wrapLines (splitAfterNL (buf.drop p ++ text))).map (buf.take p ++ ·)

/-- The words of a text: maximal runs of wordRE characters (Go
wordRE.FindAllString).  Fuel-indexed so that it reduces definitionally; a
fuel of `l.length` always suffices. -/
def wordsF : Nat → List Char → List (List Char)
  | 0, _ => []
  | _ + 1, [] => []
  | fuel + 1, c :: cs =>
    if isWordChar c then (c :: cs.takeWhile isWordChar) :: wordsF fuel (cs.dropWhile isWordChar)
    else wordsF fuel cs

/-- The words of a text. -/
def wordsL (l : List Char) : List (List Char) := wordsF l.length l

/-- wordCount from getspdx.go. -/
def wordCountL (s : List Char) : Nat := (wordsL s).length

/-- findAttr from getspdx.go: extract the value of attribute `name` from a
tag's text; missing pieces yield the empty string. -/
def findAttr (tag name : List Char) : List Char :=
  match idxOf? (name ++ S "=\"") tag with
  | none => []
  | some i =>
    let rest := tag.drop (i + name.length + 2)
    match idxOf? (S "\"") rest with
    | none => []
    | some j => rest.take j

/-- The endOptional handler of templateToLRE, given the buffer and the popped
block start offset: close the optional group and discard the whole block when
it contains no words, or only the plural suffix "s". -/
def endOptionalApply (buf : List Char) (o : Nat) : List Char :=
  let b1 := if (buf.drop o).contains '\n' then indentNL buf else buf ++ [' ']
  let b2 := indentNL (b1 ++ S "))??")
  if wordsL (b2.drop o) = [] ∨ wordsL (b2.drop o) = [S "s"] then b2.take o else b2

/-- Variant of the endOptional handler with the newline test removed: it
always takes the newline-with-indent branch.  Used to state that the
single-space branch of the real handler is unreachable. -/
def endOptionalApplyNL (buf : List Char) (o : Nat) : List Char :=
  let b2 := indentNL (indentNL buf ++ S "))??")
  if wordsL (b2.drop o) = [] ∨ wordsL (b2.drop o) = [S "s"] then b2.take o else b2

/-- The variable-substitution handler of templateToLRE (the `<<var;` case),
including the surrounding indentNL calls of the interpreter loop; in the
empty-bullet continuation case the trailing indentNL is skipped. -/
def varApply (name original buf : List Char) : List Char :=
  let b1 := indentNL buf
  if name = S "copyright" then
    indentNL (b1 ++ S "//** Copyright **//" ++ ['\n'])
  else
    let n0 := wordCountL original
    let n1 := if n0 < 1 then 1 else n0
    if name = S "bullet" ∧ n1 < 5 then
      if 0 < n0 then indentNL (b1 ++ S "(( " ++ original ++ S " ))??")
      else b1 ++ original ++ [' ']
    else
      let n2 := if name ≠ S "bullet" ∧ n1 < 5 then 5 else n1
      let b2 := if original ≠ [] then indentNL (b1 ++ S "//** " ++ original ++ S " **//") else b1
      indentNL (b2 ++ S "__" ++ natLit n2 ++ S "__")

/-- One of the six doubled structural-token characters. -/
def isStructChar (c : Char) : Bool :=
  c == '(' || c == '|' || c == ')' || c == '/' || c == '?' || c == '_'

/-- The scanning state of templateToLRE's main loop: output buffer, stack of
open optional-block offsets (top of the stack at the head), the mark where
pending literal text begins, and the cursor. -/
structure ScanSt where
  buf : List Char
  optStart : List Nat
  start : Nat
  i : Nat
deriving DecidableEq, Repr

/-- The tag case (`<<`…`>>`) of templateToLRE's scanning loop, parameterized
by the endOptional handler so that the handler variants can be compared. -/
def scanTagGen (eo : List Char → Nat → List Char) (t : List Char) (s : ScanSt) :
    Option ScanSt :=
  match idxOf? (S ">>") (t.drop s.i) with
  | none => none
  | some j =>
    let tag := (t.drop s.i).take (j + 2)
    let i2 := s.i + j + 2
    (wrap s.buf (sub t s.start s.i)).bind fun b1 =>
    if findAttr tag (S "original") = S "name" then
      (wrap b1 (S "name")).map fun b2 => ⟨b2, s.optStart, i2, i2⟩
    else
      let i3 := i2 + ((t.drop i2).takeWhile (fun e => e == ' ')).length
      if tag = S "<<beginOptional>>" then
        some ⟨indentNL b1 ++ S "(( ", b1.length :: s.optStart, i3, i3⟩
      else if tag = S "<<endOptional>>" then
        (match s.optStart with
         | [] => none
         | o :: os => some ⟨eo b1 o, os, i3, i3⟩)
      else if (S "<<var;").isPrefixOf tag then
        some ⟨varApply (findAttr tag (S "name")) (findAttr tag (S "original")) b1,
              s.optStart, i3, i3⟩
      else none

/-- One iteration of templateToLRE's scanning loop (see scanTagGen for the
tag case). -/
def scanStepGen (eo : List Char → Nat → List Char) (t : List Char) (s : ScanSt) :
    Option ScanSt :=
  match t.drop s.i with
  | c :: d :: rest =>
    if (c == d) && isStructChar c then
      let k := s.i + ((t.drop s.i).takeWhile (fun e => e == c)).length
      (wrap s.buf (sub t s.start (s.i + 1))).map fun b => ⟨b, s.optStart, k, k⟩
    else if c == '<' && d == '<' && !(rest.head? == some '<') then
      scanTagGen eo t s
    else some ⟨s.buf, s.optStart, s.start, s.i + 1⟩
  | _ => some ⟨s.buf, s.optStart, s.start, s.i + 1⟩

/-- templateToLRE's scanning loop.  Fuel bounds the number of iterations;
`t.length + 1` always suffices because every iteration advances the cursor. -/
def scanLoopGen (eo : List Char → Nat → List Char) (t : List Char) :
    Nat → ScanSt → Option ScanSt
  | 0, s => if t.length ≤ s.i then some s else none
  | fuel + 1, s =>
    if t.length ≤ s.i then some s
    else (scanStepGen eo t s).bind (scanLoopGen eo t fuel)

/-- The real scan step. -/
def scanStep : List Char → ScanSt → Option ScanSt := scanStepGen endOptionalApply

/-- Remove trailing spaces and tabs of one line (the line may carry its
newline terminator). -/
def stripLine (l : List Char) : List Char :=
  if l.getLast? = some '\n' then (l.dropLast.reverse.dropWhile isWS).reverse ++ ['\n']
  else (l.reverse.dropWhile isWS).reverse

/-- trailingSpaceRE.ReplaceAll(data, nil): strip trailing whitespace from
every line. -/
def stripTrailingWSL (x : List Char) : List Char := ((splitAfterNL x).map stripLine).flatten

/-- Greedily consume repetitions of blankRE's group `[.," \t]*\n`, returning
how many groups matched and the remaining text.  Fuel-indexed; a fuel of
`l.length` always suffices because every group consumes its newline. -/
def nbGroupsF : Nat → List Char → Nat × List Char
  | 0, l => (0, l)
  | fuel + 1, l =>
    match l.dropWhile isNB with
    | '\n' :: rest =>
      let p := nbGroupsF fuel rest
      (p.1 + 1, p.2)
    | _ => (0, l)

/-- Greedy repetition count and remainder for blankRE's group. -/
def nbGroups (l : List Char) : Nat × List Char := nbGroupsF l.length l

/-- blankRE.ReplaceAll(data, "\n\n"): collapse every newline followed by two
or more blank or near-blank lines into a single blank line.  Fuel-indexed;
`l.length` suffices because every iteration consumes at least one byte. -/
def collapseF : Nat → List Char → List Char
  | 0, l => l
  | _ + 1, [] => []
  | fuel + 1, c :: rest =>
    if c = '\n' then
      let p := nbGroups rest
      if 2 ≤ p.1 then '\n' :: '\n' :: collapseF fuel p.2
      else '\n' :: collapseF fuel rest
    else c :: collapseF fuel rest

/-- blankRE.ReplaceAll(data, "\n\n"). -/
def collapseBlank (l : List Char) : List Char := collapseF l.length l

/-- Go ASCII whitespace as trimmed by bytes.TrimSpace. -/
def isSpaceGo (c : Char) : Bool :=
  c == ' ' || c == '\t' || c == '\n' || c == '\x0b' || c == '\x0c' || c == '\r'

/-- bytes.TrimSpace. -/
def trimSpaceL (l : List Char) : List Char :=
  ((l.dropWhile isSpaceGo).reverse.dropWhile isSpaceGo).reverse

/-- Whether templateToLRE's copyright-preamble check emits its warning: the
needle `//**Copyright**//` found within the first 100 bytes, with non-empty
preceding text that is not a complete top-level optional group. -/
def copyrightWarn (data : List Char) : Bool :=
  match idxOf? (S "//**Copyright**//") data with
  | none => false
  | some i =>
    if i < 100 then
      let cut := trimSpaceL (data.take i)
      if (S "((").isPrefixOf cut && (S "))??").isSuffixOf cut then false
      else !cut.isEmpty
    else false

/-- The normalization pass at the end of templateToLRE: strip trailing
whitespace per line, collapse blank-line runs, (the copyright-preamble check
only warns and never modifies the data,) trim leading newlines, and append a
final newline when the text does not already end in one. -/
def normalizeLRE (data : List Char) : List Char :=
  let d1 := stripTrailingWSL data
  let d2 := collapseBlank d1
  let d3 := d2.dropWhile (fun c => c == '\n')
  if d3 ≠ [] ∧ d3.getLast? ≠ some '\n' then d3 ++ ['\n'] else d3

/-- templateToLRE from getspdx.go: run the scanning loop, flush the remaining
literal text, and normalize.  `none` models the Go panics. -/
def templateToLRE (t : List Char) : Option (List Char) :=
  (scanLoopGen endOptionalApply t (t.length + 1) ⟨[], [], 0, 0⟩).bind fun s =>
  (wrap s.buf (sub t s.start t.length)).map normalizeLRE

/-- Variant of templateToLRE whose endOptional handler skips the newline test
(always newline-with-indent).  Equal to templateToLRE; see the C9 theorem. -/
def templateToLREalwaysNL (t : List Char) : Option (List Char) :=
  (scanLoopGen endOptionalApplyNL t (t.length + 1) ⟨[], [], 0, 0⟩).bind fun s =>
  (wrap s.buf (sub t s.start t.length)).map normalizeLRE

/-- Whether the conversion of template `t` emits the copyright-preamble
warning. -/
def templateWarns (t : List Char) : Option Bool :=
  (scanLoopGen endOptionalApply t (t.length + 1) ⟨[], [], 0, 0⟩).bind fun s =>
  (wrap s.buf (sub t s.start t.length)).map fun data =>
  copyrightWarn (collapseBlank (stripTrailingWSL data))

/-- A line that satisfies the wrapping contract: at most 80 columns, or
indentation followed by a single unbreakable (whitespace-free) token. -/
def goodLine (l : List Char) : Bool :=
  decide (l.length ≤ 80) || (l.dropWhile isWS).all (fun c => !isWS c)

/-- Modelled from the spec: word as "maximal run of alphanumeric characters"
(section 4.2), without the underscore that Go's wordRE class also accepts. -/
def specIsAlnum (c : Char) : Bool := c.isAlpha || c.isDigit

/-- Modelled from the spec: the words of a text under the spec's
alphanumeric-run definition of a word; fuel-indexed like wordsF. -/
def specWordsF : Nat → List Char → List (List Char)
  | 0, _ => []
  | _ + 1, [] => []
  | fuel + 1, c :: cs =>
    if specIsAlnum c then (c :: cs.takeWhile specIsAlnum) :: specWordsF fuel (cs.dropWhile specIsAlnum)
    else specWordsF fuel cs

/-- Modelled from the spec: the spec's word count of a text. -/
def specWordCount (s : List Char) : Nat := (specWordsF s.length s).length

/-- Modelled from the spec: the claim C6 well-formedness scan.  It walks the
template exactly as the interpreter does, tracking only the nesting depth of
optional blocks, and reports false exactly on the three malformed-markup
conditions (tag opener with no closing `>>`, end-optional with no open block,
unrecognized tag kind). -/
def specWellFormedAux (t : List Char) : Nat → Nat → Nat → Bool
  | 0, _, _ => false
  | fuel + 1, depth, i =>
    if t.length ≤ i then true
    else
      match t.drop i with
      | c :: d :: rest =>
        if (c == d) && isStructChar c then
          specWellFormedAux t fuel depth (i + ((t.drop i).takeWhile (fun e => e == c)).length)
        else if c == '<' && d == '<' && !(rest.head? == some '<') then
          (match idxOf? (S ">>") (t.drop i) with
           | none => false
           | some j =>
             let tag := (t.drop i).take (j + 2)
             let i2 := i + j + 2
             if findAttr tag (S "original") = S "name" then specWellFormedAux t fuel depth i2
             else
               let i3 := i2 + ((t.drop i2).takeWhile (fun e => e == ' ')).length
               if tag = S "<<beginOptional>>" then specWellFormedAux t fuel (depth + 1) i3
               else if tag = S "<<endOptional>>" then
                 (match depth with
                  | 0 => false
                  | dd + 1 => specWellFormedAux t fuel dd i3)
               else if (S "<<var;").isPrefixOf tag then specWellFormedAux t fuel depth i3
               else false)
        else specWellFormedAux t fuel depth (i + 1)
      | _ => specWellFormedAux t fuel depth (i + 1)

/-- Modelled from the spec: whether a template is well-formed in the sense of
claim C6. -/
def specWellFormed (t : List Char) : Bool := specWellFormedAux t (t.length + 1) 0 0

/-- No blankRE match anywhere: no newline is followed by two or more blank or
near-blank newline-terminated lines.  Texts with this property are fixed
points of collapseBlank. -/
def nbFree : List Char → Bool
  | [] => true
  | c :: rest => (if c = '\n' then decide ((nbGroups rest).1 < 2) else true) && nbFree rest

/-- The optional-block stack invariant of templateToLRE's scanning loop: the
offsets strictly decrease from the top of the stack (head) down, and every
offset addresses a newline byte of the output buffer (the newline written by
the begin-optional handler's indentNL right after the offset was pushed). -/
def ScanInv (s : ScanSt) : Prop :=
  List.Pairwise (fun a b => b < a) s.optStart ∧ ∀ o ∈ s.optStart, s.buf[o]? = some '\n'

set_option maxRecDepth 10000

/-- dropWhile never lengthens a list. -/
theorem lenDropWhileLe (p : Char → Bool) (l : List Char) :
    (l.dropWhile p).length ≤ l.length := (List.dropWhile_sublist p).length_le

/-- C1 (code_bug evaluation): on the template `A <<var;name="copyright">>B`
the emitted copyright marker `//** Copyright **//` sits at offset 2 of the
produced document — well inside the first 100 bytes — and the non-optional
text `A` precedes it, yet the translator emits no warning and keeps `A` in
the final document: the normalizer searches for the space-free needle
`//**Copyright**//`, which never matches the marker it emitted, and even its
match branch only warns without cutting, contradicting the source comment
"cut it out and start afterward". -/
theorem c1_copyright_preamble_kept :
    templateToLRE (S "A <<var;name=\"copyright\">>B")
        = some (S "A\n//** Copyright **//\n\nB\n") ∧
      idxOf? (S "//** Copyright **//") (S "A\n//** Copyright **//\n\nB\n") = some 2 ∧
      (S "A").isPrefixOf (S "A\n//** Copyright **//\n\nB\n") = true ∧
      templateWarns (S "A <<var;name=\"copyright\">>B") = some false := by decide

/-- C2 (counterexample): translating the literal input `a??b` does not yield
output containing `a??b`; the run of `?` characters is not passed through
unchanged. -/
theorem c2_counterexample :
    templateToLRE (S "a??b") = some (S "a?b\n") ∧
      hasSub (S "a??b") (S "a?b\n") = false := by decide

/-- C2 (amended): whenever the scanner's cursor stands at a doubled
structural-token character, the maximal run of that character there has length
at least 2, and the step is a literal flush - not a tag - that wraps the
pending text extended by exactly one occurrence of the character and moves
both the literal mark and the cursor past the entire run, so the run reaches
the output collapsed to a single occurrence. -/
theorem c2_structural_run_collapsed (t : List Char) (s : ScanSt) (c : Char)
    (rest : List Char) (hrun : t.drop s.i = c :: c :: rest)
    (hc : isStructChar c = true) (hstart : s.start ≤ s.i) :
    2 ≤ ((t.drop s.i).takeWhile (fun e => e == c)).length ∧
      scanStep t s =
        (wrap s.buf (sub t s.start s.i ++ [c])).map
          (fun b => ⟨b, s.optStart,
            s.i + ((t.drop s.i).takeWhile (fun e => e == c)).length,
            s.i + ((t.drop s.i).takeWhile (fun e => e == c)).length⟩) := by
  have hsub : sub t s.start (s.i + 1) = sub t s.start s.i ++ [c] := by
    have hm : s.i + 1 - s.start = (s.i - s.start) + 1 := by omega
    have hget : (t.drop s.start)[s.i - s.start]? = some c := by
      rw [List.getElem?_drop]
      have hix : s.start + (s.i - s.start) = s.i := by omega
      rw [hix]
      have h0 : t[s.i]? = (t.drop s.i)[0]? := by rw [List.getElem?_drop]; rfl
      rw [h0, hrun]
      rfl
    unfold sub
    rw [hm, List.take_succ, hget]
    rfl
  refine ⟨?_, ?_⟩
  · rw [hrun]
    simp only [List.takeWhile_cons, beq_self_eq_true, if_true, List.length_cons]
    omega
  · show scanStepGen endOptionalApply t s = _
    unfold scanStepGen
    rw [hrun]
    simp only [beq_self_eq_true, hc, Bool.and_self, if_true]
    rw [← hrun, hsub]

/-- C2 (witness): the amended theorem at the cursor state the translation of
the literal input `a??b` reaches at offset 1. -/
theorem c2_structural_run_collapsed_witness :
    2 ≤ (((S "a??b").drop 1).takeWhile (fun e => e == '?')).length ∧
      scanStep (S "a??b") ⟨[], [], 0, 1⟩ =
        (wrap ([] : List Char) (sub (S "a??b") 0 1 ++ ['?'])).map
          (fun b => ⟨b, [],
            1 + (((S "a??b").drop 1).takeWhile (fun e => e == '?')).length,
            1 + (((S "a??b").drop 1).takeWhile (fun e => e == '?')).length⟩) :=
  c2_structural_run_collapsed (S "a??b") ⟨[], [], 0, 1⟩ '?' (S "b")
    (by decide) (by decide) (by decide)

/-- C4 (counterexample): for the variable original `a_b c d e f` the spec's
alphanumeric word count is 6 (at least 5, so by the claim it would be used
unchanged), yet the emitted wildcard is `__5__`, not `__6__`: Go's wordRE
also accepts the underscore, so `a_b` is one word, not two. -/
theorem c4_counterexample :
    specWordCount (S "a_b c d e f") = 6 ∧
      hasSub (S "__5__") (varApply (S "x") (S "a_b c d e f") []) = true ∧
      hasSub (S "__6__") (varApply (S "x") (S "a_b c d e f") []) = false := by decide

/-- C5 (counterexample): the annotation comment emitted for a variable's
original text bypasses the line-reflow engine; a 40-word original yields an
89-column output line containing spaces, violating the claimed 80-column
bound for the whole Pattern Document body. -/
theorem c5_counterexample :
    (templateToLRE (S "<<var;name=\"x\";original=\"w w w w w w w w w w w w w w w w w w w w w w w w w w w w w w w w w w w w w w w w\">>")).map
        (fun d => (linesL d).all goodLine) = some false := by decide

/-- C6 (code_bug evaluation): the template consisting of 81 spaces and an
`x` is well-formed — it contains no markup at all — yet its translation
fails fatally: wrap's forward scan indexes `line[Target-len(indent)]` with a
negative index (Go panic: index out of range) whenever a line's indentation
exceeds the 80-column target. -/
theorem c6_wellformed_wrap_panic :
    specWellFormed (List.replicate 81 ' ' ++ ['x']) = true ∧
      templateToLRE (List.replicate 81 ' ' ++ ['x']) = none := by decide

/-- C7 (counterexample): normalization is not idempotent on documents the
translator has produced.  The template `A\n.\n.` produces the document
`A\n.\n.\n` (the trailing newline is appended after blank-line collapsing),
and normalizing that document again collapses the now newline-terminated
near-blank run to `A\n\n`. -/
theorem c7_counterexample :
    templateToLRE (S "A\n.\n.") = some (S "A\n.\n.\n") ∧
      normalizeLRE (S "A\n.\n.\n") ≠ S "A\n.\n.\n" := by decide

/-- C8 (counterexample): the template `A\n\n\n` produces the document
`A\n\n`, which ends with two newline characters, not exactly one: blank-line
collapsing can end the document with a blank line and the final
ensure-newline step never removes newlines. -/
theorem c8_counterexample :
    templateToLRE (S "A\n\n\n") = some (S "A\n\n") ∧
      ¬((S "A\n\n").getLast? = some '\n' ∧ (S "A\n\n").dropLast.getLast? ≠ some '\n') := by
  decide

/-- wordsF is fuel-insensitive once the fuel covers the text length. -/
theorem wordsF_stable (f₁ : Nat) : ∀ (f₂ : Nat) (l : List Char),
    l.length ≤ f₁ → l.length ≤ f₂ → wordsF f₁ l = wordsF f₂ l := by
  induction f₁ with
  | zero =>
    intro f₂ l h₁ _
    have : l = [] := List.length_eq_zero.mp (Nat.le_zero.mp h₁)
    subst this
    cases f₂ <;> rfl
  | succ g ih =>
    intro f₂ l h₁ h₂
    cases l with
    | nil => cases f₂ <;> rfl
    | cons c cs =>
      cases f₂ with
      | zero => simp at h₂
      | succ g₂ =>
        simp only [List.length_cons, Nat.succ_le_succ_iff] at h₁ h₂
        simp only [wordsF]
        by_cases hw : isWordChar c
        · simp only [hw, if_pos]
          rw [ih g₂ (cs.dropWhile isWordChar)
            (Nat.le_trans (lenDropWhileLe _ _) h₁)
            (Nat.le_trans (lenDropWhileLe _ _) h₂)]
        · simp only [hw, if_neg, Bool.false_eq_true]
          exact ih g₂ cs h₁ h₂

/-- Step equation of wordsL at a word character. -/
theorem wordsL_cons_word (c : Char) (cs : List Char) (h : isWordChar c = true) :
    wordsL (c :: cs) = (c :: cs.takeWhile isWordChar) :: wordsL (cs.dropWhile isWordChar) := by
  show wordsF (c :: cs).length (c :: cs) = _
  simp only [List.length_cons, wordsF, h, if_pos]
  rw [wordsF_stable cs.length _ _ (lenDropWhileLe _ _) Nat.le.refl]
  rfl

/-- Step equation of wordsL at a non-word character. -/
theorem wordsL_cons_nonword (c : Char) (cs : List Char) (h : isWordChar c = false) :
    wordsL (c :: cs) = wordsL cs := by
  show wordsF (c :: cs).length (c :: cs) = _
  simp only [List.length_cons, wordsF, h]
  rfl

/-- A text of non-word characters has no words. -/
theorem wordsL_nil_nonword (b : List Char) (hb : ∀ c ∈ b, isWordChar c = false) :
    wordsL b = [] := by
  induction b with
  | nil => rfl
  | cons c cs ih =>
    rw [wordsL_cons_nonword c cs (hb c (List.mem_cons_self c cs))]
    exact ih fun x hx => hb x (List.mem_cons_of_mem c hx)

/-- takeWhile over an append whose second part starts with a failing character. -/
theorem takeWhile_append_nonword (p : Char → Bool) (cs b : List Char)
    (hb : ∀ c ∈ b, p c = false) : (cs ++ b).takeWhile p = cs.takeWhile p := by
  induction cs with
  | nil =>
    cases b with
    | nil => rfl
    | cons x xs => simp [List.takeWhile_cons, hb x (List.mem_cons_self x xs)]
  | cons c cs ih =>
    by_cases hc : p c
    · simp [List.takeWhile_cons, hc, ih]
    · simp [List.takeWhile_cons, hc]

/-- dropWhile over an append whose second part starts with a failing character. -/
theorem dropWhile_append_nonword (p : Char → Bool) (cs b : List Char)
    (hb : ∀ c ∈ b, p c = false) : (cs ++ b).dropWhile p = cs.dropWhile p ++ b := by
  induction cs with
  | nil =>
    cases b with
    | nil => rfl
    | cons x xs => simp [List.dropWhile_cons, hb x (List.mem_cons_self x xs)]
  | cons c cs ih =>
    by_cases hc : p c
    · simp [List.dropWhile_cons, hc, ih]
    · simp [List.dropWhile_cons, hc]

/-- Appending word-free text does not change the words of a text. -/
theorem wordsL_append_nonword (b : List Char) (hb : ∀ c ∈ b, isWordChar c = false) :
    ∀ (n : Nat) (a : List Char), a.length ≤ n → wordsL (a ++ b) = wordsL a := by
  intro n
  induction n with
  | zero =>
    intro a ha
    have : a = [] := List.length_eq_zero.mp (Nat.le_zero.mp ha)
    subst this
    exact wordsL_nil_nonword b hb
  | succ m ih =>
    intro a ha
    cases a with
    | nil => exact wordsL_nil_nonword b hb
    | cons c cs =>
      simp only [List.length_cons, Nat.succ_le_succ_iff] at ha
      by_cases hw : isWordChar c
      · rw [List.cons_append, wordsL_cons_word c _ hw, wordsL_cons_word c cs hw,
          takeWhile_append_nonword _ cs b hb, dropWhile_append_nonword _ cs b hb,
          ih _ (Nat.le_trans (lenDropWhileLe _ _) ha)]
      · rw [List.cons_append,
          wordsL_cons_nonword c _ (Bool.not_eq_true _ ▸ (by simpa using hw)),
          wordsL_cons_nonword c cs (by simpa using hw)]
        exact ih cs ha

/-- Space and tab are not word characters. -/
theorem ws_nonword (c : Char) (h : isWS c = true) : isWordChar c = false := by
  simp only [isWS, Bool.or_eq_true, beq_iff_eq] at h
  rcases h with h | h <;> subst h <;> decide

/-- Indentation consists of non-word characters. -/
theorem indentOf_nonword (l : List Char) : ∀ c ∈ indentOf l, isWordChar c = false :=
  fun c hc => ws_nonword c (List.mem_takeWhile_imp hc)

/-- Core of the C3 argument: once the buffer extension is exposed as
`buf ++ tail` with a word-free, non-empty tail, the handler's truncation test
is equivalent to the word test on the text written since the offset. -/
theorem c3_core (buf tail : List Char) (o : Nat) (ho : o ≤ buf.length)
    (hnw : ∀ c ∈ tail, isWordChar c = false) (hlen : 1 ≤ tail.length) :
    ((if wordsL ((buf ++ tail).drop o) = [] ∨ wordsL ((buf ++ tail).drop o) = [S "s"]
        then (buf ++ tail).take o else buf ++ tail) = buf.take o)
    ↔ (wordsL (buf.drop o) = [] ∨ wordsL (buf.drop o) = [S "s"]) := by
  have hwords : wordsL ((buf ++ tail).drop o) = wordsL (buf.drop o) := by
    rw [List.drop_append_of_le_length ho]
    exact wordsL_append_nonword tail hnw (buf.drop o).length _ Nat.le.refl
  rw [hwords]
  by_cases hc : wordsL (buf.drop o) = [] ∨ wordsL (buf.drop o) = [S "s"]
  · rw [if_pos hc]
    simp only [hc, iff_true]
    exact List.take_append_of_le_length ho
  · rw [if_neg hc]
    simp only [hc, iff_false]
    intro heq
    have h1 : (buf ++ tail).length = (buf.take o).length := by rw [heq]
    simp only [List.length_append, List.length_take] at h1
    omega

/-- C3: for every buffer state and in-range block start offset, the
endOptional handler truncates the buffer back to the start offset — removing
the whole block together with its markers — exactly when the text written
since that offset contains zero words or exactly one word equal to "s";
otherwise the buffer keeps the appended close-plus-suffix markers. -/
theorem c3_trivial_optional_discarded (buf : List Char) (o : Nat) (ho : o ≤ buf.length) :
    endOptionalApply buf o = buf.take o ↔
      (wordsL (buf.drop o) = [] ∨ wordsL (buf.drop o) = [S "s"]) := by
  simp only [endOptionalApply]
  by_cases h : (buf.drop o).contains '\n' = true
  · rw [if_pos h]
    have hb2 : indentNL (indentNL buf ++ S "))??")
        = buf ++ ('\n' :: (indentOf buf ++ (S "))??"
            ++ '\n' :: indentOf (indentNL buf ++ S "))??")))) := by
      simp [indentNL, List.append_assoc]
    rw [hb2]
    refine c3_core buf _ o ho ?_ (by simp)
    intro c hc
    simp only [List.mem_cons, List.mem_append] at hc
    rcases hc with hc | hc | hc | hc
    · subst hc; decide
    · exact indentOf_nonword buf c hc
    · exact (by decide : ∀ c ∈ S "))??", isWordChar c = false) c hc
    · rcases hc with hc | hc
      · subst hc; decide
      · exact indentOf_nonword _ c hc
  · rw [if_neg h]
    have hb2 : indentNL ((buf ++ [' ']) ++ S "))??")
        = buf ++ (' ' :: (S "))??" ++ '\n' :: indentOf ((buf ++ [' ']) ++ S "))??"))) := by
      simp [indentNL, List.append_assoc]
    rw [hb2]
    refine c3_core buf _ o ho ?_ (by simp)
    intro c hc
    simp only [List.mem_cons, List.mem_append] at hc
    rcases hc with hc | hc | hc
    · subst hc; decide
    · exact (by decide : ∀ c ∈ S "))??", isWordChar c = false) c hc
    · rcases hc with hc | hc
      · subst hc; decide
      · exact indentOf_nonword _ c hc

/-- C3 (witness): on the buffer `A(( s` with block start offset 1, the text
since the offset has exactly the word "s", and the handler truncates back to
`A`. -/
theorem c3_witness :
    1 ≤ (S "A(( s").length ∧ endOptionalApply (S "A(( s") 1 = (S "A(( s").take 1 :=
  ⟨by decide, (c3_trivial_optional_discarded (S "A(( s") 1 (by decide)).mpr (by decide)⟩

/-- C4 (amended): for every variable whose name is neither "bullet" nor
"copyright", the emitted fixed-wildcard marker is `__n__` with
n = max 5 (word count of the original attribute), where a word is a maximal
run of wordRE characters (ASCII alphanumerics or underscore); in particular
n is never below 5. -/
theorem c4_wildcard_floor (name original buf : List Char)
    (h1 : name ≠ S "bullet") (h2 : name ≠ S "copyright") :
    ∃ pre ind, varApply name original buf
        = pre ++ S "__" ++ natLit (max 5 (wordCountL original)) ++ S "__" ++ '\n' :: ind
      ∧ 5 ≤ max 5 (wordCountL original) := by
  have hn : (if name ≠ S "bullet" ∧ (if wordCountL original < 1 then 1 else wordCountL original) < 5
      then 5 else (if wordCountL original < 1 then 1 else wordCountL original))
      = max 5 (wordCountL original) := by
    by_cases h0 : wordCountL original < 1
    · rw [if_pos h0, if_pos ⟨h1, by omega⟩]
      omega
    · rw [if_neg h0]
      by_cases h5 : wordCountL original < 5
      · rw [if_pos ⟨h1, h5⟩]
        omega
      · rw [if_neg (fun hh => h5 hh.2)]
        omega
  refine ⟨(if original ≠ [] then indentNL (indentNL buf ++ S "//** " ++ original ++ S " **//")
      else indentNL buf),
    indentOf ((if original ≠ [] then indentNL (indentNL buf ++ S "//** " ++ original ++ S " **//")
      else indentNL buf) ++ S "__" ++ natLit (max 5 (wordCountL original)) ++ S "__"),
    ?_, by omega⟩
  simp only [varApply]
  rw [if_neg h2, if_neg (fun hh => h1 hh.1), hn]
  simp [indentNL, List.append_assoc]

/-- C4 (witness): a variable named `x` with original `hello` (one word, so
the floor applies) gets the wildcard `__5__`. -/
theorem c4_wildcard_floor_witness :
    (S "x" ≠ S "bullet") ∧ (S "x" ≠ S "copyright") ∧
      (∃ pre ind, varApply (S "x") (S "hello") []
          = pre ++ S "__" ++ natLit (max 5 (wordCountL (S "hello"))) ++ S "__" ++ '\n' :: ind
        ∧ 5 ≤ max 5 (wordCountL (S "hello"))) :=
  ⟨by decide, by decide, c4_wildcard_floor (S "x") (S "hello") [] (by decide) (by decide)⟩

/-- The head of a dropWhile result fails the predicate. -/
theorem head_dropWhile_false (p : Char → Bool) (l : List Char) (c : Char)
    (h : (l.dropWhile p).head? = some c) : p c = false := by
  induction l with
  | nil => simp [List.dropWhile] at h
  | cons x xs ih =>
    by_cases hx : p x
    · rw [List.dropWhile_cons_of_pos hx] at h
      exact ih h
    · rw [List.dropWhile_cons_of_neg hx] at h
      simp only [List.head?_cons, Option.some.injEq] at h
      subst h
      simpa using hx

/-- The normalization pass yields a document with no leading newline and at
least one trailing newline (when the document is non-empty). -/
theorem normalizeLRE_framing (x : List Char) (hne : normalizeLRE x ≠ []) :
    (normalizeLRE x).head? ≠ some '\n' ∧ (normalizeLRE x).getLast? = some '\n' := by
  unfold normalizeLRE at hne ⊢
  set d3 := (collapseBlank (stripTrailingWSL x)).dropWhile (fun c => c == '\n') with hd3
  have hhead : d3.head? ≠ some '\n' := by
    intro hh
    have := head_dropWhile_false _ _ _ (hd3 ▸ hh)
    simp at this
  by_cases hc : d3 ≠ [] ∧ d3.getLast? ≠ some '\n'
  · rw [if_pos hc] at hne ⊢
    constructor
    · rw [List.head?_append_of_ne_nil _ hc.1]
      exact hhead
    · exact List.getLast?_concat d3
  · rw [if_neg hc] at hne ⊢
    push_neg at hc
    exact ⟨hhead, hc hne⟩

/-- C8 (amended): every document the translator produces starts with no
leading newline and, when non-empty, ends with at least one trailing
newline; it can end with two (see the counterexample), and the empty
template yields the empty document. -/
theorem c8_no_leading_trailing_newline (t d : List Char)
    (h : templateToLRE t = some d) (hne : d ≠ []) :
    d.head? ≠ some '\n' ∧ d.getLast? = some '\n' := by
  unfold templateToLRE at h
  cases hs : scanLoopGen endOptionalApply t (t.length + 1) ⟨[], [], 0, 0⟩ with
  | none => rw [hs] at h; simp at h
  | some s =>
    rw [hs] at h
    simp only [Option.some_bind] at h
    cases hw : wrap s.buf (sub t s.start t.length) with
    | none => rw [hw] at h; simp at h
    | some w =>
      rw [hw] at h
      simp only [Option.map_some', Option.some.injEq] at h
      subst h
      exact normalizeLRE_framing w hne

/-- C8 (witness): the template `hi` yields the document `hi\n`, which indeed
has no leading newline and ends in a newline. -/
theorem c8_no_leading_trailing_newline_witness :
    templateToLRE (S "hi") = some (S "hi\n") ∧ (S "hi\n") ≠ [] ∧
      ((S "hi\n").head? ≠ some '\n' ∧ (S "hi\n").getLast? = some '\n') :=
  ⟨by decide, by decide, c8_no_leading_trailing_newline (S "hi") (S "hi\n") (by decide) (by decide)⟩

/-- getLast? of a cons with non-empty tail. -/
theorem getLast_cons_ne (c : Char) (cs : List Char) (h : cs ≠ []) :
    (c :: cs).getLast? = cs.getLast? := by
  rw [List.getLast?_cons]
  cases hc : cs.getLast? with
  | none => exact absurd (List.getLast?_eq_none_iff.mp hc) h
  | some x => simp

/-- dropWhile is idempotent. -/
theorem dropWhile_idem (p : Char → Bool) (l : List Char) :
    (l.dropWhile p).dropWhile p = l.dropWhile p := by
  cases h : l.dropWhile p with
  | nil => rfl
  | cons c cs =>
    rw [List.dropWhile_cons_of_neg]
    have := head_dropWhile_false p l c (by rw [h]; rfl)
    simp [this]

/-- dropWhile preserves the last element when its result is non-empty. -/
theorem getLast_dropWhile (p : Char → Bool) (l : List Char)
    (h : l.dropWhile p ≠ []) : (l.dropWhile p).getLast? = l.getLast? := by
  induction l with
  | nil => simp at h
  | cons c cs ih =>
    by_cases hc : p c
    · rw [List.dropWhile_cons_of_pos hc] at h ⊢
      rw [ih h, getLast_cons_ne]
      intro hnil
      rw [hnil] at h
      simp [List.dropWhile] at h
    · rw [List.dropWhile_cons_of_neg hc]

/-- splitAfterNL across a newline-free prefix followed by a newline. -/
theorem sal_append_nl (A rest : List Char) (hA : '\n' ∉ A) :
    splitAfterNL (A ++ '\n' :: rest) = (A ++ ['\n']) :: splitAfterNL rest := by
  induction A with
  | nil => simp [splitAfterNL]
  | cons a A ih =>
    have ha : a ≠ '\n' := fun h => hA (h ▸ List.mem_cons_self a A)
    have hA' : '\n' ∉ A := fun h => hA (List.mem_cons_of_mem a h)
    simp [List.cons_append, splitAfterNL, ha, ih hA']

/-- splitAfterNL of a newline-free text. -/
theorem sal_no_nl (A : List Char) (hA : '\n' ∉ A) : splitAfterNL A = [A] := by
  induction A with
  | nil => rfl
  | cons a A ih =>
    have ha : a ≠ '\n' := fun h => hA (h ▸ List.mem_cons_self a A)
    have hA' : '\n' ∉ A := fun h => hA (List.mem_cons_of_mem a h)
    simp [splitAfterNL, ha, ih hA']

/-- A newline-free text is stripped by removing its trailing whitespace. -/
theorem stripL_no_nl (A : List Char) (hA : '\n' ∉ A) :
    stripTrailingWSL A = (A.reverse.dropWhile isWS).reverse := by
  rw [stripTrailingWSL, sal_no_nl A hA]
  simp only [List.map_cons, List.map_nil, List.flatten_cons, List.flatten_nil, List.append_nil]
  rw [stripLine, if_neg]
  intro h
  exact hA (List.mem_of_mem_getLast? h)

/-- Stripping across the first newline of a text. -/
theorem stripL_append_nl (A rest : List Char) (hA : '\n' ∉ A) :
    stripTrailingWSL (A ++ '\n' :: rest)
      = (A.reverse.dropWhile isWS).reverse ++ '\n' :: stripTrailingWSL rest := by
  rw [stripTrailingWSL, sal_append_nl A rest hA]
  simp only [List.map_cons, List.flatten_cons]
  rw [stripLine, if_pos (List.getLast?_concat A), List.dropLast_concat]
  simp [stripTrailingWSL, List.append_assoc]

/-- Trailing-whitespace removal introduces no characters. -/
theorem dtws_no_nl (A : List Char) (hA : '\n' ∉ A) :
    '\n' ∉ (A.reverse.dropWhile isWS).reverse := by
  intro h
  exact hA (by
    have h1 := List.mem_reverse.mp h
    have h2 := (List.dropWhile_sublist isWS).mem h1
    exact List.mem_reverse.mp h2)

/-- Splitting a text at its first newline. -/
theorem split_first_nl (x : List Char) (h : '\n' ∈ x) :
    ∃ A rest, x = A ++ '\n' :: rest ∧ '\n' ∉ A ∧ rest.length < x.length := by
  refine ⟨x.takeWhile (· ≠ '\n'), (x.dropWhile (· ≠ '\n')).tail, ?_, ?_, ?_⟩
  · cases hd : x.dropWhile (· ≠ '\n') with
    | nil =>
      exfalso
      have := List.dropWhile_eq_nil_iff.mp hd '\n' h
      simp at this
    | cons c cs =>
      have hc : c = '\n' := by
        have := head_dropWhile_false _ x c (by rw [hd]; rfl)
        simpa using this
      subst hc
      conv_lhs => rw [← List.takeWhile_append_dropWhile (p := (· ≠ '\n')) (l := x)]
      rw [hd]
      rfl
  · intro hm
    have := List.mem_takeWhile_imp hm
    simp at this
  · cases hd : x.dropWhile (· ≠ '\n') with
    | nil =>
      exfalso
      have := List.dropWhile_eq_nil_iff.mp hd '\n' h
      simp at this
    | cons c cs =>
      have h1 : (x.dropWhile (· ≠ '\n')).length ≤ x.length := lenDropWhileLe _ x
      rw [hd] at h1
      simp only [List.length_cons, List.tail_cons] at h1 ⊢
      omega

/-- Trailing-whitespace removal per line is idempotent. -/
theorem dtws_idem (A : List Char) :
    (((A.reverse.dropWhile isWS).reverse).reverse.dropWhile isWS).reverse
      = (A.reverse.dropWhile isWS).reverse := by
  rw [List.reverse_reverse, dropWhile_idem]

/-- stripTrailingWSL is idempotent. -/
theorem stripL_idem : ∀ (n : Nat) (x : List Char), x.length ≤ n →
    stripTrailingWSL (stripTrailingWSL x) = stripTrailingWSL x := by
  intro n
  induction n with
  | zero =>
    intro x hx
    have : x = [] := List.length_eq_zero.mp (Nat.le_zero.mp hx)
    subst this
    rfl
  | succ m ih =>
    intro x hx
    by_cases h : '\n' ∈ x
    · obtain ⟨A, rest, hsplit, hA, hlt⟩ := split_first_nl x h
      subst hsplit
      rw [stripL_append_nl A rest hA, stripL_append_nl _ _ (dtws_no_nl A hA), dtws_idem,
        ih rest (by simp at hx; omega)]
    · rw [stripL_no_nl x h, stripL_no_nl _ (dtws_no_nl x h), dtws_idem]

/-- Stripping preserves a trailing newline. -/
theorem stripL_last_nl : ∀ (n : Nat) (x : List Char), x.length ≤ n →
    x.getLast? = some '\n' → (stripTrailingWSL x).getLast? = some '\n' := by
  intro n
  induction n with
  | zero =>
    intro x hx hlast
    have : x = [] := List.length_eq_zero.mp (Nat.le_zero.mp hx)
    subst this
    simp at hlast
  | succ m ih =>
    intro x hx hlast
    have h : '\n' ∈ x := List.mem_of_mem_getLast? hlast
    obtain ⟨A, rest, hsplit, hA, hlt⟩ := split_first_nl x h
    subst hsplit
    rw [stripL_append_nl A rest hA]
    cases hr : rest with
    | nil =>
      subst hr
      have : stripTrailingWSL ([] : List Char) = [] := rfl
      rw [this]
      rw [List.getLast?_append_of_ne_nil _ (by simp)]
      rfl
    | cons r rs =>
      have hrne : rest ≠ [] := by rw [hr]; simp
      have hrlast : rest.getLast? = some '\n' := by
        rw [List.getLast?_append_of_ne_nil A (by simp), getLast_cons_ne _ _ hrne] at hlast
        exact hlast
      rw [← hr]
      have hstrip := ih rest (by simp at hx; omega) hrlast
      have hsne : stripTrailingWSL rest ≠ [] := by
        intro hnil
        rw [hnil] at hstrip
        simp at hstrip
      rw [List.getLast?_append_of_ne_nil _ (by simp), getLast_cons_ne _ _ hsne]
      exact hstrip

/-- Dropping leading newlines of a stripped text keeps it stripped. -/
theorem stripL_fix_dropNL : ∀ (x : List Char), stripTrailingWSL x = x →
    stripTrailingWSL (x.dropWhile (fun c => c == '\n')) = x.dropWhile (fun c => c == '\n') := by
  intro x
  induction x with
  | nil => intro _; rfl
  | cons c cs ih =>
    intro hfix
    by_cases hc : c = '\n'
    · subst hc
      have h1 : stripTrailingWSL ('\n' :: cs) = '\n' :: stripTrailingWSL cs := by
        have := stripL_append_nl [] cs (by simp)
        simpa using this
      rw [h1] at hfix
      have h2 : stripTrailingWSL cs = cs := by
        injection hfix
      rw [List.dropWhile_cons_of_pos (by simp)]
      exact ih h2
    · rw [List.dropWhile_cons_of_neg (by simp [hc])]
      exact hfix

/-- nbFree survives dropping leading newlines. -/
theorem nbFree_dropNL (x : List Char) (h : nbFree x = true) :
    nbFree (x.dropWhile (fun c => c == '\n')) = true := by
  induction x with
  | nil => exact h
  | cons c cs ih =>
    simp only [nbFree, Bool.and_eq_true] at h
    by_cases hc : c = '\n'
    · rw [List.dropWhile_cons_of_pos (by simp [hc])]
      exact ih h.2
    · rw [List.dropWhile_cons_of_neg (by simp [hc])]
      simp only [nbFree, Bool.and_eq_true]
      exact h

/-- A text with no blankRE match is a fixed point of collapseF. -/
theorem collapseF_id : ∀ (fuel : Nat) (x : List Char), x.length ≤ fuel →
    nbFree x = true → collapseF fuel x = x := by
  intro fuel
  induction fuel with
  | zero => intro x _ _; rfl
  | succ g ih =>
    intro x hx hf
    cases x with
    | nil => rfl
    | cons c rest =>
      simp only [nbFree, Bool.and_eq_true] at hf
      simp only [collapseF]
      by_cases hc : c = '\n'
      · rw [if_pos hc]
        have h2 : ¬ 2 ≤ (nbGroups rest).1 := by
          have h1 := hf.1
          rw [if_pos hc] at h1
          simp only [decide_eq_true_eq] at h1
          omega
        rw [if_neg h2, ih rest (by simp at hx; omega) hf.2, hc]
      · rw [if_neg hc, ih rest (by simp at hx; omega) hf.2]

/-- A text with no blankRE match is a fixed point of collapseBlank. -/
theorem collapseBlank_id (x : List Char) (h : nbFree x = true) :
    collapseBlank x = x := collapseF_id x.length x Nat.le.refl h

/-- C7 (amended): the normalization pass is idempotent on documents that end
with a newline and whose stripped text contains no blankRE match (no newline
followed by two or more near-blank newline-terminated lines); in general it
is not idempotent, because the appended trailing newline can complete a
near-blank run that only a second pass collapses (see the counterexample). -/
theorem c7_normalize_conditionally_idempotent (x : List Char)
    (h1 : x.getLast? = some '\n') (h2 : nbFree (stripTrailingWSL x) = true) :
    normalizeLRE (normalizeLRE x) = normalizeLRE x := by
  have hx1last : (stripTrailingWSL x).getLast? = some '\n' :=
    stripL_last_nl x.length x Nat.le.refl h1
  have hcoll : collapseBlank (stripTrailingWSL x) = stripTrailingWSL x :=
    collapseBlank_id _ h2
  have hnorm1 : normalizeLRE x = (stripTrailingWSL x).dropWhile (fun c => c == '\n') := by
    simp only [normalizeLRE, hcoll]
    by_cases hyn : (stripTrailingWSL x).dropWhile (fun c => c == '\n') = []
    · rw [if_neg (fun hcond => hcond.1 hyn)]
    · have hylast : ((stripTrailingWSL x).dropWhile (fun c => c == '\n')).getLast?
          = some '\n' := by
        rw [getLast_dropWhile _ _ hyn]
        exact hx1last
      rw [if_neg (fun hcond => hcond.2 hylast)]
  rw [hnorm1]
  have hfix : stripTrailingWSL ((stripTrailingWSL x).dropWhile (fun c => c == '\n'))
      = (stripTrailingWSL x).dropWhile (fun c => c == '\n') :=
    stripL_fix_dropNL _ (stripL_idem x.length x Nat.le.refl)
  have hnby : nbFree ((stripTrailingWSL x).dropWhile (fun c => c == '\n')) = true :=
    nbFree_dropNL _ h2
  simp only [normalizeLRE, hfix, collapseBlank_id _ hnby]
  by_cases hyn : (stripTrailingWSL x).dropWhile (fun c => c == '\n') = []
  · rw [hyn]
    simp
  · have hylast : ((stripTrailingWSL x).dropWhile (fun c => c == '\n')).getLast?
        = some '\n' := by
      rw [getLast_dropWhile _ _ hyn]
      exact hx1last
    rw [dropWhile_idem]
    rw [if_neg (fun hcond => hcond.2 hylast)]

/-- C7 (witness): the document `A\nB\n` ends in a newline, its stripped text
has no blankRE match, and normalizing it twice equals normalizing it once. -/
theorem c7_normalize_conditionally_idempotent_witness :
    (S "A\nB\n").getLast? = some '\n' ∧ nbFree (stripTrailingWSL (S "A\nB\n")) = true ∧
      normalizeLRE (normalizeLRE (S "A\nB\n")) = normalizeLRE (S "A\nB\n") :=
  ⟨by decide, by decide,
    c7_normalize_conditionally_idempotent (S "A\nB\n") (by decide) (by decide)⟩

/-- dropLast commutes with drop. -/
theorem dropLast_drop_comm (l : List Char) (n : Nat) :
    (l.drop n).dropLast = l.dropLast.drop n := by
  rw [List.dropLast_eq_take, List.dropLast_eq_take, List.length_drop, List.take_drop]
  by_cases h : l.length ≤ n
  · have e1 : List.drop n (List.take (n + (l.length - n - 1)) l) = [] :=
      List.drop_eq_nil_of_le (by rw [List.length_take]; omega)
    have e2 : List.drop n (List.take (l.length - 1) l) = [] :=
      List.drop_eq_nil_of_le (by rw [List.length_take]; omega)
    rw [e1, e2]
  · have harg : n + (l.length - n - 1) = l.length - 1 := by omega
    rw [harg]

/-- The buffer beyond the current-line start, described explicitly. -/
theorem lls_drop (l : List Char) :
    l.drop (lastLineStart l) = (l.reverse.takeWhile (· ≠ '\n')).reverse := by
  have hsplit := List.takeWhile_append_dropWhile (p := (· ≠ '\n')) (l := l.reverse)
  have h2 : l = (l.reverse.dropWhile (· ≠ '\n')).reverse
      ++ (l.reverse.takeWhile (· ≠ '\n')).reverse := by
    rw [← List.reverse_append, hsplit, List.reverse_reverse]
  have hlen : lastLineStart l = (l.reverse.dropWhile (· ≠ '\n')).reverse.length := by
    have h3 := congrArg List.length hsplit
    simp only [List.length_append, List.length_reverse] at h3 ⊢
    rw [lastLineStart]
    omega
  calc l.drop (lastLineStart l)
      = ((l.reverse.dropWhile (· ≠ '\n')).reverse
          ++ (l.reverse.takeWhile (· ≠ '\n')).reverse).drop
            ((l.reverse.dropWhile (· ≠ '\n')).reverse.length) := by
        rw [← h2, ← hlen]
    _ = (l.reverse.takeWhile (· ≠ '\n')).reverse := List.drop_left _ _

/-- The buffer up to the current-line start, described explicitly. -/
theorem lls_take (l : List Char) :
    l.take (lastLineStart l) = (l.reverse.dropWhile (· ≠ '\n')).reverse := by
  have hsplit := List.takeWhile_append_dropWhile (p := (· ≠ '\n')) (l := l.reverse)
  have h2 : l = (l.reverse.dropWhile (· ≠ '\n')).reverse
      ++ (l.reverse.takeWhile (· ≠ '\n')).reverse := by
    rw [← List.reverse_append, hsplit, List.reverse_reverse]
  have hlen : lastLineStart l = (l.reverse.dropWhile (· ≠ '\n')).reverse.length := by
    have h3 := congrArg List.length hsplit
    simp only [List.length_append, List.length_reverse] at h3 ⊢
    rw [lastLineStart]
    omega
  calc l.take (lastLineStart l)
      = ((l.reverse.dropWhile (· ≠ '\n')).reverse
          ++ (l.reverse.takeWhile (· ≠ '\n')).reverse).take
            ((l.reverse.dropWhile (· ≠ '\n')).reverse.length) := by
        rw [← h2, ← hlen]
    _ = (l.reverse.dropWhile (· ≠ '\n')).reverse := List.take_left _ _

/-- The current line contains no newline. -/
theorem lls_drop_nl_free (l : List Char) : '\n' ∉ l.drop (lastLineStart l) := by
  rw [lls_drop]
  intro h
  have h1 := List.mem_takeWhile_imp (List.mem_reverse.mp h)
  simp at h1

/-- The text before the current line ends with a newline, unless it is empty. -/
theorem lls_take_ends_nl (l : List Char) (h : l.take (lastLineStart l) ≠ []) :
    (l.take (lastLineStart l)).getLast? = some '\n' := by
  rw [lls_take] at h ⊢
  cases hd : l.reverse.dropWhile (· ≠ '\n') with
  | nil => rw [hd] at h; simp at h
  | cons c cs =>
    have hc : c = '\n' := by
      have := head_dropWhile_false _ l.reverse c (by rw [hd]; rfl)
      simpa using this
    rw [List.getLast?_reverse]
    simp [hc]

/-- A newline byte of the buffer lies before the current-line start. -/
theorem get_nl_lt_lls (l : List Char) (o : Nat) (h : l[o]? = some '\n') :
    o < lastLineStart l := by
  by_contra hge
  push_neg at hge
  have h1 : (l.drop (lastLineStart l))[o - lastLineStart l]? = some '\n' := by
    rw [List.getElem?_drop]
    rw [show lastLineStart l + (o - lastLineStart l) = o by omega]
    exact h
  exact lls_drop_nl_free l (List.getElem?_mem h1)

/-- lastLineStart never exceeds the length. -/
theorem lls_le (l : List Char) : lastLineStart l ≤ l.length := by
  rw [lastLineStart]
  omega

/-- splitAfterNL never returns the empty list. -/
theorem sal_ne_nil (x : List Char) : splitAfterNL x ≠ [] := by
  cases x with
  | nil => simp [splitAfterNL]
  | cons c cs =>
    by_cases hc : c = '\n'
    · simp [splitAfterNL, hc]
    · simp only [splitAfterNL, hc, if_neg]
      cases splitAfterNL cs <;> simp

/-- No line piece hides a newline before its final position. -/
theorem sal_pieces_nl_free : ∀ (n : Nat) (x : List Char), x.length ≤ n →
    ∀ p ∈ splitAfterNL x, '\n' ∉ p.dropLast := by
  intro n
  induction n with
  | zero =>
    intro x hx p hp
    have : x = [] := List.length_eq_zero.mp (Nat.le_zero.mp hx)
    subst this
    simp [splitAfterNL] at hp
    simp [hp]
  | succ m ih =>
    intro x hx p hp
    by_cases h : '\n' ∈ x
    · obtain ⟨A, rest, hsplit, hA, hlt⟩ := split_first_nl x h
      subst hsplit
      rw [sal_append_nl A rest hA] at hp
      rcases List.mem_cons.mp hp with hp | hp
      · subst hp
        rw [List.dropLast_concat]
        exact hA
      · exact ih rest (by simp at hx; omega) p hp
    · rw [sal_no_nl x h] at hp
      simp at hp
      subst hp
      intro hmem
      exact h ((List.dropLast_sublist p).mem hmem)

/-- Every line piece except the last ends with a newline. -/
theorem sal_pre_nl : ∀ (n : Nat) (x : List Char), x.length ≤ n →
    ∀ p ∈ (splitAfterNL x).dropLast, p.getLast? = some '\n' := by
  intro n
  induction n with
  | zero =>
    intro x hx p hp
    have : x = [] := List.length_eq_zero.mp (Nat.le_zero.mp hx)
    subst this
    simp [splitAfterNL] at hp
  | succ m ih =>
    intro x hx p hp
    by_cases h : '\n' ∈ x
    · obtain ⟨A, rest, hsplit, hA, hlt⟩ := split_first_nl x h
      subst hsplit
      rw [sal_append_nl A rest hA, List.dropLast_cons_of_ne_nil (sal_ne_nil rest)] at hp
      rcases List.mem_cons.mp hp with hp | hp
      · subst hp
        exact List.getLast?_concat A
      · exact ih rest (by simp at hx; omega) p hp
    · rw [sal_no_nl x h] at hp
      simp at hp

/-- splitAfterNL distributes over an append at a newline boundary. -/
theorem sal_append_end : ∀ (n : Nat) (a : List Char), a.length ≤ n →
    a.getLast? = some '\n' →
    ∀ b, splitAfterNL (a ++ b) = (splitAfterNL a).dropLast ++ splitAfterNL b := by
  intro n
  induction n with
  | zero =>
    intro a ha hlast b
    have : a = [] := List.length_eq_zero.mp (Nat.le_zero.mp ha)
    subst this
    simp at hlast
  | succ m ih =>
    intro a ha hlast b
    have h : '\n' ∈ a := List.mem_of_mem_getLast? hlast
    obtain ⟨A, rest, hsplit, hA, hlt⟩ := split_first_nl a h
    subst hsplit
    rw [List.append_assoc, List.cons_append, sal_append_nl A _ hA, sal_append_nl A rest hA]
    cases hr : rest with
    | nil =>
      subst hr
      simp [splitAfterNL]
    | cons r rs =>
      have hrne : rest ≠ [] := by rw [hr]; simp
      rw [← hr]
      have hrlast : rest.getLast? = some '\n' := by
        rw [List.getLast?_append_of_ne_nil A (by simp), getLast_cons_ne _ _ hrne] at hlast
        exact hlast
      rw [ih rest (by simp at ha; omega) hrlast b,
        List.dropLast_cons_of_ne_nil (sal_ne_nil rest)]
      rfl

/-- lineBody of a newline-free text. -/
theorem lineBody_no_nl (A : List Char) (hA : '\n' ∉ A) : lineBody A = A := by
  rw [lineBody, List.takeWhile_eq_self_iff.mpr]
  intro a haA
  simp only [decide_eq_true_eq]
  intro heq
  exact hA (heq ▸ haA)

/-- lineBody of a newline-terminated line. -/
theorem lineBody_concat (A : List Char) (hA : '\n' ∉ A) : lineBody (A ++ ['\n']) = A := by
  rw [lineBody]
  induction A with
  | nil => simp [List.takeWhile]
  | cons a A ih =>
    have ha : a ≠ '\n' := fun hh => hA (hh ▸ List.mem_cons_self a A)
    have hA' : '\n' ∉ A := fun hh => hA (List.mem_cons_of_mem a hh)
    simp only [List.cons_append, List.takeWhile_cons, decide_eq_true_eq]
    rw [ih hA']
    simp [ha]

/-- linesL across a newline-free first line. -/
theorem linesL_cons_line (A rest : List Char) (hA : '\n' ∉ A) :
    linesL (A ++ '\n' :: rest) = A :: linesL rest := by
  rw [linesL, sal_append_nl A rest hA, List.map_cons, lineBody_concat A hA]
  rfl

/-- linesL of a newline-free text. -/
theorem linesL_no_nl (A : List Char) (hA : '\n' ∉ A) : linesL A = [A] := by
  rw [linesL, sal_no_nl A hA, List.map_cons, lineBody_no_nl A hA]
  rfl

/-- linesL distributes over an append at a newline boundary. -/
theorem linesL_append_end (a b : List Char) (hlast : a.getLast? = some '\n') :
    linesL (a ++ b) = (linesL a).dropLast ++ linesL b := by
  rw [linesL, sal_append_end a.length a Nat.le.refl hlast b, List.map_append, linesL, linesL,
    ← List.map_dropLast]

/-- drop preserves the last element while non-empty. -/
theorem getLast_drop (l : List Char) (n : Nat) (h : l.drop n ≠ []) :
    (l.drop n).getLast? = l.getLast? := by
  induction n generalizing l with
  | zero => rfl
  | succ m ih =>
    cases l with
    | nil => simp at h
    | cons c cs =>
      simp only [List.drop_succ_cons] at h ⊢
      rw [ih cs h, getLast_cons_ne]
      intro hnil
      rw [hnil] at h
      simp at h

/-- A line that ends in a newline keeps at least one byte beyond any
whitespace run that starts strictly inside it. -/
theorem wsrun_lt_of_last_nl (line : List Char) (j : Nat)
    (hlast : line.getLast? = some '\n') (hj : j < line.length) :
    j + ((line.drop j).takeWhile isWS).length < line.length := by
  by_contra hge
  push_neg at hge
  have hlen1 : ((line.drop j).takeWhile isWS).length ≤ (line.drop j).length :=
    (List.takeWhile_sublist isWS).length_le
  rw [List.length_drop] at hlen1
  have hlen2 : ((line.drop j).takeWhile isWS).length = (line.drop j).length := by
    rw [List.length_drop]
    omega
  obtain ⟨suf, hsuf⟩ := List.takeWhile_prefix (l := line.drop j) isWS
  have hsufnil : suf = [] := by
    have := congrArg List.length hsuf
    rw [List.length_append, hlen2] at this
    rw [← List.length_eq_zero]
    omega
  rw [hsufnil, List.append_nil] at hsuf
  have hall : ∀ x ∈ line.drop j, isWS x = true := by
    intro x hx
    exact List.mem_takeWhile_imp (hsuf ▸ hx)
  have hdne : line.drop j ≠ [] := by
    intro hnil
    have := congrArg List.length hnil
    rw [List.length_drop] at this
    simp at this
    omega
  have hlast2 : (line.drop j).getLast? = some '\n' := by rw [getLast_drop _ _ hdne]; exact hlast
  have := hall '\n' (List.mem_of_mem_getLast? hlast2)
  simp [isWS] at this

/-- The reflow loop preserves a trailing newline of the processed line. -/
theorem wla_last : ∀ (fuel : Nat) (indent line out : List Char),
    line.getLast? = some '\n' → wrapLineAux indent fuel line = some out →
    out.getLast? = some '\n' := by
  intro fuel
  induction fuel with
  | zero => intro indent line out _ h; simp [wrapLineAux] at h
  | succ g ih =>
    intro indent line out hlast h
    have hlne : line ≠ [] := by
      intro hnil
      rw [hnil] at hlast
      simp at hlast
    simp only [wrapLineAux] at h
    by_cases h80 : 80 < indent.length
    · rw [if_pos h80] at h
      simp at h
    rw [if_neg h80] at h
    by_cases hle : line.length ≤ 80 - indent.length
    · rw [if_pos hle] at h
      simp only [Option.some.injEq] at h
      subst h
      rw [List.getLast?_append_of_ne_nil indent hlne]
      exact hlast
    rw [if_neg hle] at h
    push_neg at hle
    cases hm : ((line.take (80 - indent.length + 1)).reverse).dropWhile (fun c => !isWS c) with
    | cons c before =>
      rw [hm] at h
      simp only [Option.map_eq_some'] at h
      obtain ⟨rest, hrest, hout⟩ := h
      have hjle : before.length ≤ 80 - indent.length := by
        have h1 := lenDropWhileLe (fun c => !isWS c) ((line.take (80 - indent.length + 1)).reverse)
        rw [hm] at h1
        simp only [List.length_cons, List.length_reverse, List.length_take] at h1
        omega
      have hjlt : before.length < line.length := by omega
      have hklt := wsrun_lt_of_last_nl line before.length hlast hjlt
      have hdne : line.drop (before.length + ((line.drop before.length).takeWhile isWS).length)
          ≠ [] := by
        intro hnil
        have := congrArg List.length hnil
        rw [List.length_drop] at this
        simp at this
        omega
      have hrlast : rest.getLast? = some '\n' := by
        refine ih indent _ rest ?_ hrest
        rw [getLast_drop _ _ hdne]
        exact hlast
      subst hout
      have hrne : rest ≠ [] := by
        intro hnil
        rw [hnil] at hrlast
        simp at hrlast
      rw [List.getLast?_append_of_ne_nil _ (by simp), getLast_cons_ne _ _ hrne]
      exact hrlast
    | nil =>
      rw [hm] at h
      by_cases hjl : 80 - indent.length
          + ((line.drop (80 - indent.length)).takeWhile (fun c => !isWS c)).length
          = line.length
      · rw [if_pos hjl] at h
        simp only [Option.some.injEq] at h
        subst h
        rw [List.getLast?_append_of_ne_nil indent hlne]
        exact hlast
      · rw [if_neg hjl] at h
        simp only [Option.map_eq_some'] at h
        obtain ⟨rest, hrest, hout⟩ := h
        have htle : ((line.drop (80 - indent.length)).takeWhile (fun c => !isWS c)).length
            ≤ line.length - (80 - indent.length) := by
          have := (List.takeWhile_sublist (l := line.drop (80 - indent.length))
            (fun c => !isWS c)).length_le
          rw [List.length_drop] at this
          exact this
        have hjlt : 80 - indent.length
            + ((line.drop (80 - indent.length)).takeWhile (fun c => !isWS c)).length
            < line.length := by omega
        have hklt := wsrun_lt_of_last_nl line _ hlast hjlt
        have hdne : line.drop (80 - indent.length
            + ((line.drop (80 - indent.length)).takeWhile (fun c => !isWS c)).length
            + ((line.drop (80 - indent.length
              + ((line.drop (80 - indent.length)).takeWhile (fun c => !isWS c)).length)).takeWhile
                isWS).length) ≠ [] := by
          intro hnil
          have := congrArg List.length hnil
          rw [List.length_drop] at this
          simp at this
          omega
        have hrlast : rest.getLast? = some '\n' := by
          refine ih indent _ rest ?_ hrest
          rw [getLast_drop _ _ hdne]
          exact hlast
        subst hout
        have hrne : rest ≠ [] := by
          intro hnil
          rw [hnil] at hrlast
          simp at hrlast
        rw [List.getLast?_append_of_ne_nil _ (by simp), getLast_cons_ne _ _ hrne]
        exact hrlast

/-- Lines within the width bound satisfy the wrapping contract. -/
theorem goodLine_of_le (l : List Char) (h : l.length ≤ 80) : goodLine l = true := by
  simp [goodLine, h]

/-- A whitespace-prefixed unbreakable token satisfies the wrapping contract. -/
theorem goodLine_of_token (l : List Char)
    (h : (l.dropWhile isWS).all (fun c => !isWS c) = true) : goodLine l = true := by
  simp only [goodLine, Bool.or_eq_true]
  exact Or.inr h

/-- Dropping leading whitespace skips a fully-whitespace prefix. -/
theorem dropWhile_ws_append (indent z : List Char) (h : ∀ c ∈ indent, isWS c = true) :
    (indent ++ z).dropWhile isWS = z.dropWhile isWS := by
  induction indent with
  | nil => rfl
  | cons c cs ih =>
    rw [List.cons_append, List.dropWhile_cons_of_pos (h c (List.mem_cons_self c cs))]
    exact ih fun x hx => h x (List.mem_cons_of_mem c hx)

/-- A proper prefix of a line avoids the line's only possible newline. -/
theorem nl_free_take (l : List Char) (j : Nat) (h : '\n' ∉ l.dropLast)
    (hj : j < l.length) : '\n' ∉ l.take j := by
  intro hmem
  apply h
  rw [List.dropLast_eq_take]
  have : l.take j = (l.take (l.length - 1)).take j := by
    rw [List.take_take]
    congr 1
    omega
  rw [this] at hmem
  exact (List.take_sublist j _).mem hmem

/-- The lines produced by flushing `indent ++ line` all satisfy the wrapping
contract, provided the combined width fits or the line is unbreakable. -/
theorem lines_emit_good (indent line : List Char)
    (hind : ∀ c ∈ indent, isWS c = true)
    (hnl : '\n' ∉ line.dropLast)
    (hgood : indent.length + line.length ≤ 80 ∨ (∀ c ∈ line, isWS c = false)) :
    ∀ ℓ ∈ linesL (indent ++ line), goodLine ℓ = true := by
  have hindnl : '\n' ∉ indent := by
    intro hmem
    have := hind '\n' hmem
    simp [isWS] at this
  have hgoodline : goodLine (indent ++ line.dropLast) = true ∧
      goodLine (indent ++ line) = true := by
    constructor
    · rcases hgood with hg | hg
      · refine goodLine_of_le _ ?_
        have := (List.dropLast_sublist line).length_le
        rw [List.length_append]
        omega
      · refine goodLine_of_token _ (List.all_eq_true.mpr ?_)
        intro c hc
        have h1 : c ∈ line.dropLast :=
          (List.dropWhile_sublist isWS).mem (by rwa [dropWhile_ws_append _ _ hind] at hc)
        have := hg c ((List.dropLast_sublist line).mem h1)
        simp [this]
    · rcases hgood with hg | hg
      · refine goodLine_of_le _ ?_
        rw [List.length_append]
        omega
      · refine goodLine_of_token _ (List.all_eq_true.mpr ?_)
        intro c hc
        have h1 : c ∈ line :=
          (List.dropWhile_sublist isWS).mem (by rwa [dropWhile_ws_append _ _ hind] at hc)
        have := hg c h1
        simp [this]
  by_cases hln : '\n' ∈ line
  · have hlne : line ≠ [] := List.ne_nil_of_mem hln
    have hglast : line.getLast hlne = '\n' := by
      have hsplit := List.dropLast_append_getLast hlne
      rcases List.mem_append.mp (hsplit ▸ hln) with hmem | hmem
      · exact absurd hmem hnl
      · have h2 : '\n' = line.getLast hlne := by simpa using hmem
        exact h2.symm
    have hsplit : line = line.dropLast ++ '\n' :: [] := by
      conv_lhs => rw [← List.dropLast_append_getLast hlne]
      rw [hglast]
    intro ℓ hℓ
    rw [show indent ++ line = (indent ++ line.dropLast) ++ '\n' :: [] by
        rw [List.append_assoc, ← hsplit]] at hℓ
    rw [linesL_cons_line _ _ (by
        intro hmem
        rcases List.mem_append.mp hmem with hmem | hmem
        · exact hindnl hmem
        · exact hnl hmem)] at hℓ
    rcases List.mem_cons.mp hℓ with hℓ | hℓ
    · subst hℓ
      exact hgoodline.1
    · have : linesL [] = [[]] := rfl
      rw [this] at hℓ
      simp only [List.mem_singleton] at hℓ
      subst hℓ
      decide
  · intro ℓ hℓ
    rw [linesL_no_nl (indent ++ line) (by
        intro hmem
        rcases List.mem_append.mp hmem with hmem | hmem
        · exact hindnl hmem
        · exact hln hmem)] at hℓ
    simp only [List.mem_singleton] at hℓ
    subst hℓ
    exact hgoodline.2

/-- Taking exactly the takeWhile prefix returns it. -/
theorem take_takeWhile_length (p : Char → Bool) (l : List Char) :
    l.take ((l.takeWhile p).length) = l.takeWhile p := by
  induction l with
  | nil => rfl
  | cons c cs ih =>
    by_cases hc : p c
    · rw [List.takeWhile_cons_of_pos hc, List.length_cons, List.take_succ_cons, ih]
    · rw [List.takeWhile_cons_of_neg hc, List.length_nil, List.take_zero]

/-- The reflow loop only emits lines satisfying the wrapping contract: each
is at most 80 columns, or consists of the indentation followed by a single
unbreakable token. -/
theorem wla_lines_good : ∀ (fuel : Nat) (indent line out : List Char),
    (∀ c ∈ indent, isWS c = true) → '\n' ∉ line.dropLast →
    wrapLineAux indent fuel line = some out →
    ∀ ℓ ∈ linesL out, goodLine ℓ = true := by
  intro fuel
  induction fuel with
  | zero => intro indent line out _ _ h; simp [wrapLineAux] at h
  | succ g ih =>
    intro indent line out hind hnl h
    have hindnl : '\n' ∉ indent := by
      intro hmem
      have := hind '\n' hmem
      simp [isWS] at this
    simp only [wrapLineAux] at h
    by_cases h80 : 80 < indent.length
    · rw [if_pos h80] at h
      simp at h
    rw [if_neg h80] at h
    push_neg at h80
    by_cases hle : line.length ≤ 80 - indent.length
    · rw [if_pos hle] at h
      simp only [Option.some.injEq] at h
      subst h
      exact lines_emit_good indent line hind hnl (Or.inl (by omega))
    rw [if_neg hle] at h
    push_neg at hle
    cases hm : ((line.take (80 - indent.length + 1)).reverse).dropWhile (fun c => !isWS c) with
    | cons c before =>
      rw [hm] at h
      simp only [Option.map_eq_some'] at h
      obtain ⟨rest, hrest, hout⟩ := h
      subst hout
      have hjle : before.length ≤ 80 - indent.length := by
        have h1 := lenDropWhileLe (fun c => !isWS c) ((line.take (80 - indent.length + 1)).reverse)
        rw [hm] at h1
        simp only [List.length_cons, List.length_reverse, List.length_take] at h1
        omega
      have hjlt : before.length < line.length := by omega
      have hAnl : '\n' ∉ indent ++ line.take before.length := by
        intro hmem
        rcases List.mem_append.mp hmem with hmem | hmem
        · exact hindnl hmem
        · exact nl_free_take line before.length hnl hjlt hmem
      have hnl' : '\n' ∉ (line.drop (before.length
          + ((line.drop before.length).takeWhile isWS).length)).dropLast := by
        rw [dropLast_drop_comm]
        intro hmem
        exact hnl ((List.drop_sublist _ _).mem hmem)
      intro ℓ hℓ
      rw [linesL_cons_line _ _ hAnl] at hℓ
      rcases List.mem_cons.mp hℓ with hℓ | hℓ
      · subst hℓ
        refine goodLine_of_le _ ?_
        rw [List.length_append, List.length_take]
        omega
      · exact ih indent _ rest hind hnl' hrest ℓ hℓ
    | nil =>
      rw [hm] at h
      have hall1 : ∀ x ∈ line.take (80 - indent.length + 1), isWS x = false := by
        intro x hx
        have := List.dropWhile_eq_nil_iff.mp hm x (List.mem_reverse.mpr hx)
        simpa using this
      by_cases hjl : 80 - indent.length
          + ((line.drop (80 - indent.length)).takeWhile (fun c => !isWS c)).length
          = line.length
      · rw [if_pos hjl] at h
        simp only [Option.some.injEq] at h
        subst h
        have htfull : ((line.drop (80 - indent.length)).takeWhile (fun c => !isWS c)).length
            = (line.drop (80 - indent.length)).length := by
          rw [List.length_drop]
          omega
        have hall2 : ∀ x ∈ line.drop (80 - indent.length), isWS x = false := by
          obtain ⟨suf, hsuf⟩ :=
            List.takeWhile_prefix (l := line.drop (80 - indent.length)) (fun c => !isWS c)
          have hsufnil : suf = [] := by
            have := congrArg List.length hsuf
            rw [List.length_append, htfull] at this
            rw [← List.length_eq_zero]
            omega
          rw [hsufnil, List.append_nil] at hsuf
          intro x hx
          have := List.mem_takeWhile_imp (hsuf ▸ hx)
          simpa using this
        refine lines_emit_good indent line hind hnl (Or.inr ?_)
        intro x hx
        rcases List.mem_append.mp
            ((List.take_append_drop (80 - indent.length + 1) line) ▸ hx) with hmem | hmem
        · exact hall1 x hmem
        · refine hall2 x ?_
          have : line.drop (80 - indent.length + 1)
              = (line.drop (80 - indent.length)).drop 1 := by
            rw [List.drop_drop]
          rw [this] at hmem
          exact (List.drop_sublist _ _).mem hmem
      · rw [if_neg hjl] at h
        simp only [Option.map_eq_some'] at h
        obtain ⟨rest, hrest, hout⟩ := h
        subst hout
        have htle : ((line.drop (80 - indent.length)).takeWhile (fun c => !isWS c)).length
            ≤ line.length - (80 - indent.length) := by
          have := (List.takeWhile_sublist (l := line.drop (80 - indent.length))
            (fun c => !isWS c)).length_le
          rw [List.length_drop] at this
          exact this
        have hjlt : 80 - indent.length
            + ((line.drop (80 - indent.length)).takeWhile (fun c => !isWS c)).length
            < line.length := by omega
        have htake_nonws : ∀ x ∈ line.take (80 - indent.length
            + ((line.drop (80 - indent.length)).takeWhile (fun c => !isWS c)).length),
            isWS x = false := by
          rw [List.take_add]
          intro x hx
          rcases List.mem_append.mp hx with hmem | hmem
          · refine hall1 x ?_
            have : line.take (80 - indent.length)
                = (line.take (80 - indent.length + 1)).take (80 - indent.length) := by
              rw [List.take_take]
              congr 1
              omega
            rw [this] at hmem
            exact (List.take_sublist _ _).mem hmem
          · rw [take_takeWhile_length] at hmem
            have := List.mem_takeWhile_imp hmem
            simpa using this
        have hAnl : '\n' ∉ indent ++ line.take (80 - indent.length
            + ((line.drop (80 - indent.length)).takeWhile (fun c => !isWS c)).length) := by
          intro hmem
          rcases List.mem_append.mp hmem with hmem | hmem
          · exact hindnl hmem
          · exact nl_free_take line _ hnl hjlt hmem
        have hnl' : '\n' ∉ (line.drop (80 - indent.length
            + ((line.drop (80 - indent.length)).takeWhile (fun c => !isWS c)).length
            + ((line.drop (80 - indent.length
              + ((line.drop (80 - indent.length)).takeWhile (fun c => !isWS c)).length)).takeWhile
                isWS).length)).dropLast := by
          rw [dropLast_drop_comm]
          intro hmem
          exact hnl ((List.drop_sublist _ _).mem hmem)
        intro ℓ hℓ
        rw [linesL_cons_line _ _ hAnl] at hℓ
        rcases List.mem_cons.mp hℓ with hℓ | hℓ
        · subst hℓ
          refine goodLine_of_token _ (List.all_eq_true.mpr ?_)
          intro x hx
          have h1 : x ∈ line.take (80 - indent.length
              + ((line.drop (80 - indent.length)).takeWhile (fun c => !isWS c)).length) :=
            (List.dropWhile_sublist isWS).mem (by rwa [dropWhile_ws_append _ _ hind] at hx)
          have := htake_nonws x h1
          simp [this]
        · exact ih indent _ rest hind hnl' hrest ℓ hℓ

/-- dropWhile as a drop at the takeWhile boundary. -/
theorem dropWhile_eq_drop_len (p : Char → Bool) (l : List Char) :
    l.dropWhile p = l.drop (l.takeWhile p).length := by
  induction l with
  | nil => rfl
  | cons c cs ih =>
    by_cases hc : p c
    · rw [List.dropWhile_cons_of_pos hc, List.takeWhile_cons_of_pos hc, List.length_cons,
        List.drop_succ_cons, ih]
    · rw [List.dropWhile_cons_of_neg hc, List.takeWhile_cons_of_neg hc, List.length_nil,
        List.drop_zero]

/-- Reflowing a line preserves its trailing newline. -/
theorem wrapLine_last (line a : List Char) (hlast : line.getLast? = some '\n')
    (h : wrapLine line = some a) : a.getLast? = some '\n' := by
  rw [wrapLine] at h
  refine wla_last _ _ _ _ ?_ h
  have hdne : line.dropWhile isWS ≠ [] := by
    intro hnil
    have := List.dropWhile_eq_nil_iff.mp hnil '\n' (List.mem_of_mem_getLast? hlast)
    simp [isWS] at this
  rw [getLast_dropWhile _ _ hdne]
  exact hlast

/-- All lines emitted when reflowing one line satisfy the wrapping contract. -/
theorem wrapLine_lines_good (line a : List Char) (hnl : '\n' ∉ line.dropLast)
    (h : wrapLine line = some a) : ∀ ℓ ∈ linesL a, goodLine ℓ = true := by
  rw [wrapLine] at h
  refine wla_lines_good _ _ _ _ (fun c hc => List.mem_takeWhile_imp hc) ?_ h
  rw [dropWhile_eq_drop_len, dropLast_drop_comm]
  intro hmem
  exact hnl ((List.drop_sublist _ _).mem hmem)

/-- All lines emitted when reflowing a piece list satisfy the wrapping
contract, provided the pieces only carry newlines as terminators. -/
theorem wrapLines_good : ∀ (ls : List (List Char)) (out : List Char),
    (∀ p ∈ ls, '\n' ∉ p.dropLast) → (∀ p ∈ ls.dropLast, p.getLast? = some '\n') →
    wrapLines ls = some out → ∀ ℓ ∈ linesL out, goodLine ℓ = true := by
  intro ls
  induction ls with
  | nil =>
    intro out _ _ h ℓ hℓ
    simp only [wrapLines, Option.some.injEq] at h
    subst h
    have : linesL [] = [[]] := rfl
    rw [this] at hℓ
    simp only [List.mem_singleton] at hℓ
    subst hℓ
    decide
  | cons l ls ih =>
    intro out h1 h2 h ℓ hℓ
    simp only [wrapLines, Option.bind_eq_some, Option.map_eq_some'] at h
    obtain ⟨a, ha, rest, hrest, hout⟩ := h
    subst hout
    cases hls : ls with
    | nil =>
      subst hls
      simp only [wrapLines, Option.some.injEq] at hrest
      subst hrest
      rw [List.append_nil] at hℓ
      exact wrapLine_lines_good l a (h1 l (List.mem_cons_self l [])) ha ℓ hℓ
    | cons l2 ls' =>
      have hlsne : ls ≠ [] := by rw [hls]; simp
      have hlend : l.getLast? = some '\n' := by
        refine h2 l ?_
        rw [List.dropLast_cons_of_ne_nil hlsne]
        exact List.mem_cons_self l ls.dropLast
      have haend : a.getLast? = some '\n' := wrapLine_last l a hlend ha
      rw [linesL_append_end a rest haend] at hℓ
      rcases List.mem_append.mp hℓ with hm | hm
      · exact wrapLine_lines_good l a (h1 l (List.mem_cons_self l ls)) ha ℓ
          ((List.dropLast_sublist _).mem hm)
      · refine ih rest ?_ ?_ hrest ℓ hm
        · intro p hp
          exact h1 p (List.mem_cons_of_mem l hp)
        · intro p hp
          refine h2 p ?_
          rw [List.dropLast_cons_of_ne_nil hlsne]
          exact List.mem_cons_of_mem l hp

/-- C5 (amended): every line of a buffer produced by wrap either was already
a line of the previous buffer, or satisfies the wrapping contract: at most 80
columns, or indentation followed by a single unbreakable whitespace-free
token longer than the available width. -/
theorem c5_wrap_lines_bounded (buf text out : List Char) (h : wrap buf text = some out) :
    ∀ ℓ ∈ linesL out, ℓ ∈ linesL buf ∨ goodLine ℓ = true := by
  simp only [wrap, Option.map_eq_some'] at h
  obtain ⟨flowed, hflowed, hout⟩ := h
  subst hout
  have hflow_good : ∀ ℓ ∈ linesL flowed, goodLine ℓ = true := by
    refine wrapLines_good _ flowed ?_ ?_ hflowed
    · exact fun p hp => sal_pieces_nl_free _ _ Nat.le.refl p hp
    · exact fun p hp => sal_pre_nl _ _ Nat.le.refl p hp
  by_cases hp : buf.take (lastLineStart buf) = []
  · rw [hp, List.nil_append]
    intro ℓ hℓ
    exact Or.inr (hflow_good ℓ hℓ)
  · have hend := lls_take_ends_nl buf hp
    rw [linesL_append_end _ _ hend]
    intro ℓ hℓ
    rcases List.mem_append.mp hℓ with hm | hm
    · refine Or.inl ?_
      have hbuf : linesL buf
          = (linesL (buf.take (lastLineStart buf))).dropLast
            ++ linesL (buf.drop (lastLineStart buf)) := by
        conv_lhs => rw [← List.take_append_drop (lastLineStart buf) buf]
        exact linesL_append_end _ _ hend
      rw [hbuf]
      exact List.mem_append.mpr (Or.inl hm)
    · exact Or.inr (hflow_good ℓ hm)

/-- C5 (witness): wrapping `ab` onto the empty buffer yields `ab`, whose one
line is within the bound. -/
theorem c5_wrap_lines_bounded_witness :
    (S "ab") ∈ linesL ([] : List Char) ∨ goodLine (S "ab") = true :=
  c5_wrap_lines_bounded [] (S "ab") (S "ab") (by decide) (S "ab") (by decide)

/-- getElem? through the left part of an append. -/
theorem getElem_append_left' (a b : List Char) (o : Nat) (h : o < a.length) :
    (a ++ b)[o]? = a[o]? := by
  rw [List.getElem?_append]
  simp [h]

/-- A newline byte of the buffer survives a wrap call. -/
theorem wrap_pres_get (b txt out : List Char) (o : Nat) (hb : b[o]? = some '\n')
    (h : wrap b txt = some out) : out[o]? = some '\n' := by
  simp only [wrap, Option.map_eq_some'] at h
  obtain ⟨flowed, _, hout⟩ := h
  subst hout
  have holt : o < lastLineStart b := get_nl_lt_lls b o hb
  have hlen : (b.take (lastLineStart b)).length = lastLineStart b := by
    rw [List.length_take]
    have := lls_le b
    omega
  rw [getElem_append_left' _ _ o (by omega), List.getElem?_take]
  simp [holt, hb]

/-- The buffer before a newline byte survives a wrap call. -/
theorem wrap_pres_take (b txt out : List Char) (o : Nat) (hb : b[o]? = some '\n')
    (h : wrap b txt = some out) : out.take o = b.take o := by
  simp only [wrap, Option.map_eq_some'] at h
  obtain ⟨flowed, _, hout⟩ := h
  subst hout
  have holt : o < lastLineStart b := get_nl_lt_lls b o hb
  have hlen : (b.take (lastLineStart b)).length = lastLineStart b := by
    rw [List.length_take]
    have := lls_le b
    omega
  rw [List.take_append_of_le_length (by omega), List.take_take]
  congr 1
  omega

/-- Every branch of the variable handler only appends to the buffer. -/
theorem varApply_ext (name orig b : List Char) : ∃ x, varApply name orig b = b ++ x := by
  have hiNL : ∀ (y x : List Char), y = b ++ x → ∃ z, indentNL y = b ++ z := by
    intro y x h
    exact ⟨x ++ '\n' :: indentOf y, by rw [indentNL, h, List.append_assoc]⟩
  have happ : ∀ (y x w : List Char), y = b ++ x → ∃ z, y ++ w = b ++ z := by
    intro y x w h
    exact ⟨x ++ w, by rw [h, List.append_assoc]⟩
  have hb : ∃ z, indentNL b = b ++ z := hiNL b [] (by simp)
  obtain ⟨z1, hz1⟩ := hb
  simp only [varApply]
  by_cases h1 : name = S "copyright"
  · rw [if_pos h1]
    obtain ⟨z2, hz2⟩ := happ _ _ (S "//** Copyright **//") hz1
    obtain ⟨z3, hz3⟩ := happ _ _ ['\n'] hz2
    exact hiNL _ _ hz3
  rw [if_neg h1]
  by_cases h2 : name = S "bullet" ∧ (if wordCountL orig < 1 then 1 else wordCountL orig) < 5
  · rw [if_pos h2]
    by_cases h3 : 0 < wordCountL orig
    · rw [if_pos h3]
      obtain ⟨z2, hz2⟩ := happ _ _ (S "(( ") hz1
      obtain ⟨z3, hz3⟩ := happ _ _ orig hz2
      obtain ⟨z4, hz4⟩ := happ _ _ (S " ))??") hz3
      exact hiNL _ _ hz4
    · rw [if_neg h3]
      obtain ⟨z2, hz2⟩ := happ _ _ orig hz1
      exact happ _ _ [' '] hz2
  · rw [if_neg h2]
    by_cases h4 : orig ≠ []
    · rw [if_pos h4]
      obtain ⟨z2, hz2⟩ := happ _ _ (S "//** ") hz1
      obtain ⟨z3, hz3⟩ := happ _ _ orig hz2
      obtain ⟨z4, hz4⟩ := happ _ _ (S " **//") hz3
      obtain ⟨z5, hz5⟩ := hiNL _ _ hz4
      obtain ⟨z6, hz6⟩ := happ _ _ (S "__") hz5
      obtain ⟨z7, hz7⟩ := happ _ _ (natLit (if name ≠ S "bullet"
        ∧ (if wordCountL orig < 1 then 1 else wordCountL orig) < 5 then 5
        else if wordCountL orig < 1 then 1 else wordCountL orig)) hz6
      obtain ⟨z8, hz8⟩ := happ _ _ (S "__") hz7
      exact hiNL _ _ hz8
    · rw [if_neg h4]
      obtain ⟨z6, hz6⟩ := happ _ _ (S "__") hz1
      obtain ⟨z7, hz7⟩ := happ _ _ (natLit (if name ≠ S "bullet"
        ∧ (if wordCountL orig < 1 then 1 else wordCountL orig) < 5 then 5
        else if wordCountL orig < 1 then 1 else wordCountL orig)) hz6
      obtain ⟨z8, hz8⟩ := happ _ _ (S "__") hz7
      exact hiNL _ _ hz8

/-- The two endOptional handler variants agree on buffers whose block offset
addresses a newline: the newline test is then true. -/
theorem endOptional_eq_NL (b : List Char) (o : Nat) (hb : b[o]? = some '\n') :
    endOptionalApply b o = endOptionalApplyNL b o := by
  have holt : o < b.length := (List.getElem?_eq_some.mp hb).1
  have hcont : (b.drop o).contains '\n' = true := by
    have hd : b.drop o = b[o] :: b.drop (o + 1) := List.drop_eq_getElem_cons holt
    have hbo : b[o] = '\n' := (List.getElem?_eq_some.mp hb).2
    rw [hd, hbo]
    simp [List.contains]
  simp only [endOptionalApply, endOptionalApplyNL, hcont, if_pos]

/-- The endOptional handler either truncates the extended buffer at the
popped offset or keeps the extension, once the offset addresses a newline. -/
theorem endOptional_cases (b : List Char) (o : Nat) (hb : b[o]? = some '\n') :
    ∃ x, endOptionalApply b o = (b ++ x).take o ∨ endOptionalApply b o = b ++ x := by
  have holt : o < b.length := (List.getElem?_eq_some.mp hb).1
  have hcont : (b.drop o).contains '\n' = true := by
    have hd : b.drop o = b[o] :: b.drop (o + 1) := List.drop_eq_getElem_cons holt
    have hbo : b[o] = '\n' := (List.getElem?_eq_some.mp hb).2
    rw [hd, hbo]
    simp [List.contains]
  simp only [endOptionalApply, hcont, if_pos]
  refine ⟨('\n' :: indentOf b) ++ S "))??" ++ '\n' :: indentOf (indentNL b ++ S "))??"), ?_⟩
  have hb2 : indentNL (indentNL b ++ S "))??")
      = b ++ (('\n' :: indentOf b) ++ S "))??" ++ '\n' :: indentOf (indentNL b ++ S "))??")) := by
    simp [indentNL, List.append_assoc]
  rw [hb2]
  split
  · exact Or.inl rfl
  · exact Or.inr rfl

/-- Preservation of a lower newline offset through the endOptional handler. -/
theorem endOptional_pres (b : List Char) (o o' : Nat) (hb : b[o]? = some '\n')
    (ho' : o' < o) (hbo' : b[o']? = some '\n') :
    (endOptionalApply b o)[o']? = some '\n'
      ∧ (endOptionalApply b o).take o' = b.take o' := by
  have hlt' : o' < b.length := (List.getElem?_eq_some.mp hbo').1
  obtain ⟨x, hcase | hcase⟩ := endOptional_cases b o hb
  · rw [hcase]
    constructor
    · rw [List.getElem?_take]
      simp only [ho', if_pos]
      exact (getElem_append_left' b x o' hlt') ▸ (hbo' ▸ rfl)
    · rw [List.take_take, Nat.min_eq_left (Nat.le_of_lt ho'),
        List.take_append_of_le_length (Nat.le_of_lt hlt')]
  · rw [hcase]
    constructor
    · rw [getElem_append_left' b x o' hlt']
      exact hbo'
    · rw [List.take_append_of_le_length (Nat.le_of_lt hlt')]

/-- Invariant preservation through the tag case of the scanning loop. -/
theorem scanTag_inv (t : List Char) (s s' : ScanSt)
    (hpw : List.Pairwise (fun a b => b < a) s.optStart)
    (hget : ∀ o ∈ s.optStart, s.buf[o]? = some '\n')
    (h : scanTagGen endOptionalApply t s = some s') :
    ScanInv s' ∧ ∀ o ∈ s'.optStart, o ∈ s.optStart → s'.buf.take o = s.buf.take o := by
  simp only [scanTagGen] at h
  split at h
  · exact absurd h (by simp)
  rename_i j hj
  rw [Option.bind_eq_some] at h
  obtain ⟨b1, hb1, h⟩ := h
  have hget1 : ∀ o ∈ s.optStart, b1[o]? = some '\n' :=
    fun o ho => wrap_pres_get _ _ _ o (hget o ho) hb1
  have htake1 : ∀ o ∈ s.optStart, b1.take o = s.buf.take o :=
    fun o ho => wrap_pres_take _ _ _ o (hget o ho) hb1
  have hlt1 : ∀ o ∈ s.optStart, o < b1.length :=
    fun o ho => (List.getElem?_eq_some.mp (hget1 o ho)).1
  by_cases hname : findAttr ((t.drop s.i).take (j + 2)) (S "original") = S "name"
  · rw [if_pos hname] at h
    simp only [Option.map_eq_some'] at h
    obtain ⟨b2, hb2, hs'⟩ := h
    subst hs'
    refine ⟨⟨hpw, ?_⟩, ?_⟩
    · intro o ho
      exact wrap_pres_get _ _ _ o (hget1 o ho) hb2
    · intro o ho _
      rw [wrap_pres_take _ _ _ o (hget1 o ho) hb2]
      exact htake1 o ho
  rw [if_neg hname] at h
  by_cases hbegin : (t.drop s.i).take (j + 2) = S "<<beginOptional>>"
  · rw [if_pos hbegin] at h
    simp only [Option.some.injEq] at h
    subst h
    refine ⟨⟨?_, ?_⟩, ?_⟩
    · exact List.pairwise_cons.mpr ⟨fun o ho => hlt1 o ho, hpw⟩
    · intro o ho
      rcases List.mem_cons.mp ho with ho | ho
      · subst ho
        show (indentNL b1 ++ S "(( ")[b1.length]? = some '\n'
        rw [indentNL, List.append_assoc, List.getElem?_append]
        simp
      · show (indentNL b1 ++ S "(( ")[o]? = some '\n'
        rw [indentNL, List.append_assoc,
          getElem_append_left' _ _ o (hlt1 o ho)]
        exact hget1 o ho
    · intro o _ ho
      show (indentNL b1 ++ S "(( ").take o = s.buf.take o
      rw [indentNL, List.append_assoc,
        List.take_append_of_le_length (Nat.le_of_lt (hlt1 o ho))]
      exact htake1 o ho
  rw [if_neg hbegin] at h
  by_cases hend : (t.drop s.i).take (j + 2) = S "<<endOptional>>"
  · rw [if_pos hend] at h
    cases hstack : s.optStart with
    | nil =>
      rw [hstack] at h
      exact absurd h (by simp)
    | cons o os =>
      rw [hstack] at h
      simp only [Option.some.injEq] at h
      subst h
      have hmemo : o ∈ s.optStart := by rw [hstack]; exact List.mem_cons_self o os
      have hb1o : b1[o]? = some '\n' := hget1 o hmemo
      have hpw' := List.pairwise_cons.mp (hstack ▸ hpw)
      refine ⟨⟨hpw'.2, ?_⟩, ?_⟩
      · intro o' ho'
        exact (endOptional_pres b1 o o' hb1o (hpw'.1 o' ho')
          (hget1 o' (by rw [hstack]; exact List.mem_cons_of_mem o ho'))).1
      · intro o' ho' _
        rw [(endOptional_pres b1 o o' hb1o (hpw'.1 o' ho')
          (hget1 o' (by rw [hstack]; exact List.mem_cons_of_mem o ho'))).2]
        exact htake1 o' (by rw [hstack]; exact List.mem_cons_of_mem o ho')
  rw [if_neg hend] at h
  by_cases hvar : (S "<<var;").isPrefixOf ((t.drop s.i).take (j + 2)) = true
  · rw [if_pos hvar] at h
    simp only [Option.some.injEq] at h
    subst h
    obtain ⟨x, hx⟩ := varApply_ext (findAttr ((t.drop s.i).take (j + 2)) (S "name"))
      (findAttr ((t.drop s.i).take (j + 2)) (S "original")) b1
    refine ⟨⟨hpw, ?_⟩, ?_⟩
    · intro o ho
      show (varApply _ _ b1)[o]? = some '\n'
      rw [hx, getElem_append_left' _ _ o (hlt1 o ho)]
      exact hget1 o ho
    · intro o _ ho
      show (varApply _ _ b1).take o = s.buf.take o
      rw [hx, List.take_append_of_le_length (Nat.le_of_lt (hlt1 o ho))]
      exact htake1 o ho
  · rw [if_neg hvar] at h
    exact absurd h (by simp)

/-- Invariant preservation through one iteration of the scanning loop. -/
theorem scanStep_inv (t : List Char) (s s' : ScanSt) (hinv : ScanInv s)
    (h : scanStepGen endOptionalApply t s = some s') :
    ScanInv s' ∧ ∀ o ∈ s'.optStart, o ∈ s.optStart → s'.buf.take o = s.buf.take o := by
  obtain ⟨hpw, hget⟩ := hinv
  simp only [scanStepGen] at h
  split at h
  · rename_i c d rest heq
    split_ifs at h with hstruct htag
    · simp only [Option.map_eq_some'] at h
      obtain ⟨b, hb, hs'⟩ := h
      subst hs'
      refine ⟨⟨hpw, ?_⟩, ?_⟩
      · intro o ho
        exact wrap_pres_get _ _ _ o (hget o ho) hb
      · intro o ho _
        exact wrap_pres_take _ _ _ o (hget o ho) hb
    · exact scanTag_inv t s s' hpw hget h
    · simp only [Option.some.injEq] at h
      subst h
      exact ⟨⟨hpw, hget⟩, fun o _ _ => rfl⟩
  · simp only [Option.some.injEq] at h
    subst h
    exact ⟨⟨hpw, hget⟩, fun o _ _ => rfl⟩

/-- The two handler variants make the tag case indistinguishable whenever the
stack invariant holds. -/
theorem scanTag_eq (t : List Char) (s : ScanSt)
    (hget : ∀ o ∈ s.optStart, s.buf[o]? = some '\n') :
    scanTagGen endOptionalApply t s = scanTagGen endOptionalApplyNL t s := by
  simp only [scanTagGen]
  cases idxOf? (S ">>") (t.drop s.i) with
  | none => rfl
  | some j =>
    cases hw : wrap s.buf (sub t s.start s.i) with
    | none => rfl
    | some b1 =>
      simp only [Option.some_bind]
      by_cases hname : findAttr ((t.drop s.i).take (j + 2)) (S "original") = S "name"
      · rw [if_pos hname, if_pos hname]
      rw [if_neg hname, if_neg hname]
      by_cases hbegin : (t.drop s.i).take (j + 2) = S "<<beginOptional>>"
      · rw [if_pos hbegin, if_pos hbegin]
      rw [if_neg hbegin, if_neg hbegin]
      by_cases hend : (t.drop s.i).take (j + 2) = S "<<endOptional>>"
      · rw [if_pos hend, if_pos hend]
        cases hstack : s.optStart with
        | nil => rfl
        | cons o os =>
          have hb1o : b1[o]? = some '\n' :=
            wrap_pres_get _ _ _ o (hget o (by rw [hstack]; exact List.mem_cons_self o os)) hw
          simp only []
          rw [endOptional_eq_NL b1 o hb1o]
      · rw [if_neg hend, if_neg hend]

/-- The two handler variants make every loop iteration indistinguishable
whenever the stack invariant holds. -/
theorem scanStep_eq (t : List Char) (s : ScanSt) (hinv : ScanInv s) :
    scanStepGen endOptionalApply t s = scanStepGen endOptionalApplyNL t s := by
  obtain ⟨_, hget⟩ := hinv
  simp only [scanStepGen]
  cases t.drop s.i with
  | nil => rfl
  | cons c tail =>
    cases tail with
    | nil => rfl
    | cons d rest =>
      simp only []
      by_cases h1 : ((c == d) && isStructChar c) = true
      · rw [if_pos h1, if_pos h1]
      rw [if_neg h1, if_neg h1]
      by_cases h2 : (c == '<' && d == '<' && !(rest.head? == some '<')) = true
      · rw [if_pos h2, if_pos h2]
        exact scanTag_eq t s hget
      · rw [if_neg h2, if_neg h2]

/-- The two handler variants make the whole scanning loop indistinguishable
from any state satisfying the stack invariant. -/
theorem scanLoop_eq (t : List Char) : ∀ (fuel : Nat) (s : ScanSt), ScanInv s →
    scanLoopGen endOptionalApply t fuel s = scanLoopGen endOptionalApplyNL t fuel s := by
  intro fuel
  induction fuel with
  | zero => intro s _; rfl
  | succ g ih =>
    intro s hinv
    simp only [scanLoopGen]
    by_cases hdone : t.length ≤ s.i
    · rw [if_pos hdone, if_pos hdone]
    · rw [if_neg hdone, if_neg hdone, ← scanStep_eq t s hinv]
      cases hstep : scanStepGen endOptionalApply t s with
      | none => rfl
      | some s2 =>
        simp only [Option.some_bind]
        exact ih s2 (scanStep_inv t s s2 hinv hstep).1

/-- C9: the single-space branch of the endOptional handler is unreachable:
replacing the handler by the variant that unconditionally takes the
newline-with-indent branch does not change the translation of any template.
The begin-optional handler records the buffer offset before its indentNL, so
the recorded offset always addresses a newline byte that survives every
subsequent buffer operation. -/
theorem c9_space_branch_unreachable (t : List Char) :
    templateToLRE t = templateToLREalwaysNL t := by
  rw [templateToLRE, templateToLREalwaysNL,
    scanLoop_eq t (t.length + 1) ⟨[], [], 0, 0⟩
      ⟨List.Pairwise.nil, fun o ho => absurd ho (List.not_mem_nil o)⟩]

/-- C10: one scanning step preserves the optional-block stack invariant —
offsets strictly increase from the bottom of the stack to the top (the head
of the list) and each addresses a newline byte of the buffer, hence is in
range — and never modifies the buffer before any offset that remains on the
stack: in particular the endOptional handler's read at the popped offset is
in range, and its truncation never removes text written before an enclosing
open block's offset. -/
theorem c10_optional_stack_invariant (t : List Char) (s s' : ScanSt)
    (hinv : ScanInv s) (h : scanStep t s = some s') :
    ScanInv s' ∧ (∀ o ∈ s'.optStart, o < s'.buf.length)
      ∧ ∀ o ∈ s'.optStart, o ∈ s.optStart → s'.buf.take o = s.buf.take o := by
  have h2 := scanStep_inv t s s' hinv h
  exact ⟨h2.1, fun o ho => (List.getElem?_eq_some.mp (h2.1.2 o ho)).1, h2.2⟩

/-- C10 (witness): one step on the template `ab` from the initial state. -/
theorem c10_optional_stack_invariant_witness :
    ScanInv ⟨[], [], 0, 0⟩ ∧ scanStep (S "ab") ⟨[], [], 0, 0⟩ = some ⟨[], [], 0, 1⟩ ∧
      (ScanInv ⟨[], [], 0, 1⟩
        ∧ (∀ o ∈ (⟨[], [], 0, 1⟩ : ScanSt).optStart, o < (⟨[], [], 0, 1⟩ : ScanSt).buf.length)
        ∧ ∀ o ∈ (⟨[], [], 0, 1⟩ : ScanSt).optStart, o ∈ (⟨[], [], 0, 0⟩ : ScanSt).optStart →
            (⟨[], [], 0, 1⟩ : ScanSt).buf.take o = (⟨[], [], 0, 0⟩ : ScanSt).buf.take o) :=
  ⟨⟨List.Pairwise.nil, fun o ho => absurd ho (List.not_mem_nil o)⟩, by decide,
    c10_optional_stack_invariant (S "ab") ⟨[], [], 0, 0⟩ ⟨[], [], 0, 1⟩
      ⟨List.Pairwise.nil, fun o ho => absurd ho (List.not_mem_nil o)⟩ (by decide)⟩
